import Mathlib

/-!
Verification of the topic-graph and versioning core of the `django-aswiki`
wiki engine (`aswiki/models.py`, `aswiki/parser.py`).

The embedding models the persistent store explicitly: a `DB` value holds the
`Topic`, `NascentTopic` and `TopicVersion` rows; every mutating operation of
the source is a function from a `DB` (plus the operation's arguments and the
current clock) to a new `DB` together with the lifecycle events it emitted
and the exception it raised, if any.  Django specifics are modelled as
follows:

* model instances are records; a row's primary key is its `id` field, and an
  unsaved `Topic` instance has `id = none` (Python `self.id is None`);
* `datetime` values are integer timestamps with one-second resolution;
  `servertime` (a timezone conversion of the same instant) is the identity
  on such timestamps, and the `NORM_TIMESTAMP` strftime rendering of a
  timestamp (injective at second resolution) is modelled by the timestamp
  itself;
* the creole markup parser is an external library; the link names it hands
  to `TopicList.path_fn` are modelled by scanning the raw text for the
  `WIKILINK_RE` pattern `\[\[([^\]|]+)(\]\]|\|)` that `models.py` itself
  uses to locate wiki links, and the `<<subtopics ...>>` extension call is
  modelled by a scan for `<<name arg>>` occurrences;
* Django signals are dispatched synchronously: `topic_created.send` /
  `topic_renamed.send` run their registered handlers inline, which is how
  the source behaves;
* exceptions abort the operation where they are raised; database writes
  performed before the raise are kept (there is no enclosing rollback at
  this layer), which the `MRes` result type makes explicit.
-/

namespace Aswiki

/-- The exception taxonomy of `models.py`.  `typeError` stands for Python's
built-in `TypeError`, which is not part of the wiki's own taxonomy but can
escape from buggy call sites. -/
inductive Err where
  | badName
  | topicExists
  | permissionDenied
  | topicException
  | typeError
deriving DecidableEq, Repr

/-- Lifecycle events, one per Django signal defined in `models.py`
(`topic_created`, `topic_renamed`, `topic_deleted`, `topic_modified`,
`topic_notify`).  The payload is the sending topic's primary key plus the
signal's extra arguments. -/
inductive Event where
  | created (topicId : Nat)
  | renamed (topicId : Nat) (old_name : String)
  | deleted (topicId : Nat)
  | modified (topicId : Nat) (trivial_change : Bool)
  | notify (topicId : Nat)
deriving DecidableEq, Repr

/-- The slice of `django.contrib.auth.models.User` the core consults. -/
structure User where
  id : Nat
  is_staff : Bool
deriving DecidableEq, Repr

/-- `WriteLock` model: owner and expiry timestamp.  The source stores locks
in their own table referenced 1:1 from `Topic.write_lock`; the embedding
inlines the row into the owning topic, which is observably the same for a
one-to-one relation. -/
structure WriteLock where
  owner : Nat
  expiry : Int
deriving DecidableEq, Repr

/-- `NascentTopic` model row. -/
structure NascentTopic where
  id : Nat
  name : String
  lc_name : String
  created : Int
  author : Nat
deriving DecidableEq, Repr

/-- `Topic` model row (the fields the core reads or writes). -/
structure Topic where
  id : Option Nat
  name : String
  lc_name : String
  created : Int
  modified : Option Int
  author : Nat
  content_raw : String
  content_formatted : String
  write_lock : Option WriteLock
  locked : Bool
  restricted : Bool
  deleted : Bool
  references : List Nat
  nascent_topics : List Nat
  reason : String
deriving DecidableEq, Repr

/-- `TopicVersion` model row.  `created` is copied from the owning topic's
`modified` timestamp, and `normalized_created` is its `NORM_TIMESTAMP`
rendering, modelled by the same integer (second resolution). -/
structure TopicVersion where
  topic : Option Nat
  name : String
  author : Nat
  content_raw : String
  created : Int
  reason : String
  normalized_created : Int
deriving DecidableEq, Repr

/-- The persistent store: the three row sets the claims are about plus the
primary-key counters used when inserting. -/
structure DB where
  topics : List Topic
  nascents : List NascentTopic
  versions : List TopicVersion
  next_topic_id : Nat
  next_nascent_id : Nat
deriving DecidableEq, Repr

/-- Result of a mutating operation: the store after the operation, the
events it emitted, and the exception it raised (`none` on success).  On an
exception the store keeps all writes made before the raise. -/
structure MRes where
  db : DB
  events : List Event
  err : Option Err
deriving DecidableEq, Repr

/-- `WRITE_LOCK_EXPIRY = timedelta(minutes = 20)`, in seconds. -/
def WRITE_LOCK_EXPIRY : Int := 20 * 60

/-- `servertime`: converts a UTC datetime to the server timezone.  Both name
the same instant, so on zone-free integer timestamps it is the identity. -/
def servertime (dt : Int) : Int := dt

/-! ## String primitives

Python's `str.lower`, `str.strip`, `str.startswith` and `in` are modelled
by structurally recursive functions over the character list of a string
(Lean's own `String.toLower` etc. are defined by well-founded recursion on
byte positions and do not reduce definitionally, which concrete witness
evaluations need). -/

/-- `str.lower()`, character-wise (`Char.toLower` lowers `A`–`Z` only,
which matches Python on the ASCII names this engine deals in). -/
def lcString (s : String) : String := String.mk (s.data.map Char.toLower)

/-- Drops leading whitespace. -/
def dropSpaces : List Char → List Char
  | [] => []
  | c :: cs => if c.isWhitespace then dropSpaces cs else c :: cs

/-- `str.strip()`: whitespace removed from both ends. -/
def trimString (s : String) : String :=
  String.mk ((dropSpaces (dropSpaces s.data.reverse).reverse))

/-- Whether the last character is `c` (`arg_string[-1] != '.'`). -/
def endsWithChar (s : String) (c : Char) : Bool :=
  match s.data.getLast? with
  | some d => d == c
  | none => false

/-- List prefix test (`str.startswith`). -/
def beginsWith : List Char → List Char → Bool
  | [], _ => true
  | _ :: _, [] => false
  | a :: as, b :: bs => a == b && beginsWith as bs

/-! ## The wiki-link scanner

`WIKILINK_RE = re.compile(r'\[\[([^\]|]+)(\]\]|\|)')`: a match is `[[`,
then a non-empty run of characters other than `]` and `|`, closed by either
`]]` or `|`.  `re.sub` and the creole parser's link discovery both walk the
text left to right; on a failed match the scan advances one character, on a
success it resumes after the match. -/

/-- Characters allowed inside the link-name group `[^\]|]`. -/
def isLinkNameChar (c : Char) : Bool := c ≠ ']' && c ≠ '|'

/-- Splits a string into the maximal leading run of link-name characters
and the remainder (the greedy `([^\]|]+)` group). -/
def takeLinkName : List Char → List Char × List Char
  | [] => ([], [])
  | c :: cs =>
    if isLinkNameChar c then
      ((c :: (takeLinkName cs).1), (takeLinkName cs).2)
    else ([], c :: cs)

theorem takeLinkName_length (cs : List Char) :
    (takeLinkName cs).2.length ≤ cs.length := by
  induction cs with
  | nil => simp [takeLinkName]
  | cons c cs ih =>
    simp only [takeLinkName]
    split
    · exact Nat.le_succ_of_le ih
    · simp

/-- Attempts a `WIKILINK_RE` match at the head of the text.  On success it
returns the link name (group 1), the closing delimiter (group 2: `]]` or
`|`) and the text after the match. -/
def matchLink (cs : List Char) : Option (List Char × List Char × List Char) :=
  match cs with
  | a :: b :: rest =>
    if a = '[' ∧ b = '[' then
      let p := takeLinkName rest
      if p.1 = [] then none
      else
        match p.2 with
        | c :: r =>
          if c = '|' then some (p.1, ['|'], r)
          else
            match r with
            | d :: r2 => if c = ']' ∧ d = ']' then some (p.1, [']', ']'], r2) else none
            | [] => none
        | [] => none
    else none
  | _ => none

theorem matchLink_length {cs : List Char} {p : List Char × List Char × List Char}
    (h : matchLink cs = some p) : p.2.2.length < cs.length := by
  match cs with
  | [] => simp [matchLink] at h
  | [a] => simp [matchLink] at h
  | a :: b :: rest =>
    simp only [matchLink] at h
    split at h
    · have hlen := takeLinkName_length rest
      split at h
      · exact absurd h (by simp)
      · split at h
        · next heq =>
          split at h
          · cases h
            simp only [List.length_cons]
            have : (takeLinkName rest).2.length = _ := congrArg List.length heq
            simp only [List.length_cons] at this
            omega
          · split at h
            · split at h
              · cases h
                simp only [List.length_cons]
                have : (takeLinkName rest).2.length = _ := congrArg List.length heq
                simp only [List.length_cons] at this
                omega
              · exact absurd h (by simp)
            · exact absurd h (by simp)
        · exact absurd h (by simp)
    · exact absurd h (by simp)

/-- Worker for `scanLinks`, structurally recursive on a fuel counter so
that it reduces definitionally (the scan consumes at least one character
per step, so `fuel = cs.length` always reaches the end of the text;
`scanLinksF_fuel` below proves the fuel is irrelevant beyond that). -/
def scanLinksF (fuel : Nat) (cs : List Char) : List String :=
  match fuel with
  | 0 => []
  | fuel + 1 =>
    match cs with
    | [] => []
    | c :: rest =>
      match matchLink (c :: rest) with
      | some p => String.mk p.1 :: scanLinksF fuel p.2.2
      | none => scanLinksF fuel rest

/-- All link names found in a text, in match order (the names the creole
parser hands to `TopicList.path_fn` while rendering). -/
def scanLinks (cs : List Char) : List String := scanLinksF cs.length cs

theorem scanLinksF_fuel (fuel fuel' : Nat) (cs : List Char)
    (h : cs.length ≤ fuel) (h' : cs.length ≤ fuel') :
    scanLinksF fuel cs = scanLinksF fuel' cs := by
  induction fuel generalizing cs fuel' with
  | zero =>
    have : cs = [] := List.length_eq_zero.mp (Nat.le_zero.mp h)
    subst this
    cases fuel' <;> rfl
  | succ fuel ih =>
    match cs with
    | [] => cases fuel' <;> rfl
    | c :: rest =>
      match fuel', h' with
      | fuel' + 1, h' =>
        simp only [scanLinksF]
        match hm : matchLink (c :: rest) with
        | some p =>
          have hl := matchLink_length hm
          simp only [List.length_cons] at h h' hl
          simp only [ih fuel' p.2.2 (by omega) (by omega)]
        | none =>
          simp only [List.length_cons] at h h'
          simp only [ih fuel' rest (by omega) (by omega)]

/-- Worker for `subLinks`, fuelled like `scanLinksF`. -/
def subLinksF (old_lc : String) (new_name : String) (fuel : Nat)
    (cs : List Char) : List Char :=
  match fuel with
  | 0 => cs
  | fuel + 1 =>
    match cs with
    | [] => []
    | c :: rest =>
      match matchLink (c :: rest) with
      | some p =>
        if lcString (String.mk p.1) = old_lc then
          '[' :: '[' :: (new_name.data ++ p.2.1) ++ subLinksF old_lc new_name fuel p.2.2
        else
          '[' :: '[' :: (p.1 ++ p.2.1) ++ subLinksF old_lc new_name fuel p.2.2
      | none => c :: subLinksF old_lc new_name fuel rest

/-- `WIKILINK_RE.sub(repl, text)` from `Topic.rename_referenced_topic`:
every link whose name lowercases to `old_lc` is rewritten to
`[[new_name` followed by the original closing delimiter; everything else is
kept verbatim.  `old_lc` is the already-lowercased old topic name. -/
def subLinks (old_lc : String) (new_name : String) (cs : List Char) : List Char :=
  subLinksF old_lc new_name cs.length cs

theorem subLinksF_fuel (o n : String) (fuel fuel' : Nat) (cs : List Char)
    (h : cs.length ≤ fuel) (h' : cs.length ≤ fuel') :
    subLinksF o n fuel cs = subLinksF o n fuel' cs := by
  induction fuel generalizing cs fuel' with
  | zero =>
    have : cs = [] := List.length_eq_zero.mp (Nat.le_zero.mp h)
    subst this
    cases fuel' <;> rfl
  | succ fuel ih =>
    match cs with
    | [] => cases fuel' <;> rfl
    | c :: rest =>
      match fuel', h' with
      | fuel' + 1, h' =>
        simp only [subLinksF]
        match hm : matchLink (c :: rest) with
        | some p =>
          have hl := matchLink_length hm
          simp only [List.length_cons] at h h' hl
          simp only [ih fuel' p.2.2 (by omega) (by omega)]
        | none =>
          simp only [List.length_cons] at h h'
          simp only [ih fuel' rest (by omega) (by omega)]

/-! ## `TopicList` (parser.py)

The shared discovery object the dialect calls back into.  The source guards
it with a lock and clears it per render (`clear_and_lock` / `unlock`); the
embedding passes a fresh value per render, which is the per-call discovery
state the lock was simulating.  `extra_references` (topics contributed by
extension calls such as `<<subtopics ...>>` rather than by wiki links) is
modelled by `subtopicsExtra` below. -/

structure TopicList where
  topics : List String := []
  topics_case : List (String × String) := []
deriving DecidableEq, Repr

/-- `TopicList.path_fn`: called for every wiki link found while rendering.
Records the lowercased name on first sight together with the original
casing, and returns the name unchanged. -/
def TopicList.path_fn (tl : TopicList) (topic_name : String) : TopicList :=
  let lower_topic_name := lcString topic_name
  if tl.topics.contains lower_topic_name then tl
  else { topics := tl.topics ++ [lower_topic_name],
         topics_case := tl.topics_case ++ [(lower_topic_name, topic_name)] }

/-- Discovery result of rendering a raw text: the `TopicList` after the
parser has called `path_fn` on every link in match order. -/
def discoverList (raw : String) : TopicList :=
  (scanLinks raw.data).foldl TopicList.path_fn {}

/-- The lowercased link names a text references (`TOPIC_LIST.topics` after
a render of `raw`). -/
def linkNames (raw : String) : List String := (discoverList raw).topics

/-- Lookup in the `topics_case` map (`TOPIC_LIST.topics_case[name]`). -/
def caseOf : List (String × String) → String → Option String
  | [], _ => none
  | (k, v) :: rest, nm => if k = nm then some v else caseOf rest nm

/-! ## Extension calls (`<<subtopics ...>>`)

The creole dialect routes `<<name arg>>` occurrences to `macro_fn` in
`parser.py`; only the `subtopics` call contributes extra referenced topics
(via `TOPIC_LIST.extra_references`).  The `<<...>>` syntax itself belongs to
the external parser and is modelled by a direct scan. -/

/-- Takes the body of a `<<...>>` call up to the closing `>>`; `none` when
the text has no closing marker (no call is recognised then).  Structurally
recursive on the text. -/
def takeDoubleAngleBody : List Char → Option (List Char × List Char)
  | [] => none
  | a :: rest =>
    match rest with
    | b :: rest2 =>
      if a = '>' ∧ b = '>' then some ([], rest2)
      else (takeDoubleAngleBody rest).map (fun p => (a :: p.1, p.2))
    | [] => none

theorem takeDoubleAngleBody_length {cs : List Char} {p : List Char × List Char}
    (h : takeDoubleAngleBody cs = some p) : p.2.length < cs.length := by
  induction cs generalizing p with
  | nil => simp [takeDoubleAngleBody] at h
  | cons a rest ih =>
    cases rest with
    | nil => simp [takeDoubleAngleBody] at h
    | cons b rest2 =>
      simp only [takeDoubleAngleBody] at h
      split at h
      · cases h
        show rest2.length < rest2.length + 1 + 1
        omega
      · simp only [Option.map_eq_some'] at h
        obtain ⟨q, hq, rfl⟩ := h
        have := ih hq
        simp only [List.length_cons] at this ⊢
        omega

/-- Splits a call body at the first space into call name and argument
string. -/
def takeUntilSpace : List Char → List Char × List Char
  | [] => ([], [])
  | c :: cs =>
    if c = ' ' then ([], cs)
    else ((c :: (takeUntilSpace cs).1), (takeUntilSpace cs).2)

/-- Worker for `scanInlineCalls`, fuelled like `scanLinksF`. -/
def scanInlineCallsF (fuel : Nat) (cs : List Char) : List (String × String) :=
  match fuel with
  | 0 => []
  | fuel + 1 =>
    match cs with
    | [] => []
    | [_] => []
    | c :: d :: rest2 =>
      if c = '<' ∧ d = '<' then
        match takeDoubleAngleBody rest2 with
        | some p =>
          (String.mk (takeUntilSpace p.1).1, String.mk (takeUntilSpace p.1).2)
            :: scanInlineCallsF fuel p.2
        | none => scanInlineCallsF fuel rest2
      else scanInlineCallsF fuel (d :: rest2)

/-- All `<<name arg>>` occurrences of a text as (name, argument) pairs. -/
def scanInlineCalls (cs : List Char) : List (String × String) :=
  scanInlineCallsF cs.length cs

theorem scanInlineCallsF_fuel (fuel fuel' : Nat) (cs : List Char)
    (h : cs.length ≤ fuel) (h' : cs.length ≤ fuel') :
    scanInlineCallsF fuel cs = scanInlineCallsF fuel' cs := by
  induction fuel generalizing cs fuel' with
  | zero =>
    have : cs = [] := List.length_eq_zero.mp (Nat.le_zero.mp h)
    subst this
    cases fuel' <;> rfl
  | succ fuel ih =>
    match cs with
    | [] => cases fuel' <;> rfl
    | [c] =>
      match fuel', h' with
      | fuel' + 1, _ => rfl
    | c :: d :: rest2 =>
      match fuel', h' with
      | fuel' + 1, h' =>
        simp only [scanInlineCallsF]
        split
        · match hm : takeDoubleAngleBody rest2 with
          | some p =>
            have hl := takeDoubleAngleBody_length hm
            simp only [List.length_cons] at h h' hl
            simp only [ih fuel' p.2 (by omega) (by omega)]
          | none =>
            simp only [List.length_cons] at h h'
            simp only [ih fuel' rest2 (by omega) (by omega)]
        · simp only [List.length_cons] at h h'
          simp only [ih fuel' (d :: rest2) (by simp; omega) (by simp; omega)]

/-! ## Model helpers -/

/-- `Topic.valid_name`: a topic name is acceptable unless it contains `/`
or `:` (`if "/" in name or ":" in name: return False`; a one-character
substring test is character membership). -/
def Topic.valid_name (name : String) : Bool :=
  if name.data.contains '/' || name.data.contains ':' then false else true

/-- Fetch the topic row with primary key `g`. -/
def DB.findTopic (db : DB) (g : Nat) : Option Topic :=
  db.topics.find? (fun x => x.id == some g)

/-- `UPDATE` of an existing topic row by primary key (the effect of Django's
`Model.save` on an instance that already has a pk). -/
def DB.updateTopic (db : DB) (t : Topic) : DB :=
  { db with topics := db.topics.map (fun x => if x.id = t.id then t else x) }

/-- `nascent.delete()`: removes the row; Django also removes the
many-to-many join rows pointing at it, modelled by stripping the id from
every topic's `nascent_topics` list. -/
def DB.deleteNascent (db : DB) (nid : Nat) : DB :=
  { db with
    nascents := db.nascents.filter (fun n => n.id ≠ nid),
    topics := db.topics.map
      (fun t => { t with nascent_topics := t.nascent_topics.filter (· ≠ nid) }) }

/-- `TopicManager.css_class_name`: `'nonexistent'` when no live topic's
name matches case-insensitively (`filter(name__iexact = name)` on the
deleted-filtering default manager), else no class. -/
def css_class_name (db : DB) (name : String) : Option String :=
  if (db.topics.filter
        (fun t => !t.deleted && lcString t.name == lcString name)).length == 0
  then some "nonexistent" else none

/-- One rendered wiki link: the external creole renderer emits an anchor,
annotated with `class_fn`'s css class (`parser.py`).  The exact markup is a
model of the external renderer; what matters is that it depends on the link
name and on whether a live topic exists. -/
def renderLink (db : DB) (name : String) : List Char :=
  (match css_class_name db name with
   | some c => "<a class=" ++ c ++ ">" ++ name ++ "</a>"
   | none => "<a>" ++ name ++ "</a>").toList

/-- Worker for `renderChars`, fuelled like `scanLinksF`. -/
def renderCharsF (db : DB) (fuel : Nat) (cs : List Char) : List Char :=
  match fuel with
  | 0 => cs
  | fuel + 1 =>
    match cs with
    | [] => []
    | c :: rest =>
      match matchLink (c :: rest) with
      | some p => renderLink db (String.mk p.1) ++ renderCharsF db fuel p.2.2
      | none => c :: renderCharsF db fuel rest

/-- Rendered output of a raw text: wiki links become anchors, everything
else passes through.  `typogrify` is absent (`ImportError` fallback is the
identity), so no extra pass is applied. -/
def renderChars (db : DB) (cs : List Char) : List Char :=
  renderCharsF db cs.length cs

/-- Insertion into a list of topics ordered by `lc_name` (`order_by`). -/
def insertByLc (x : Topic) : List Topic → List Topic
  | [] => [x]
  | y :: ys => if x.lc_name ≤ y.lc_name then x :: y :: ys else y :: insertByLc x ys

def sortByLc (l : List Topic) : List Topic := l.foldr insertByLc []

/-- `output_subtopics` (parser.py): all live topics whose `lc_name` starts
with the argument (a trailing `.` is appended when missing), ordered by
`lc_name`; these are appended to `TOPIC_LIST.extra_references`.  The source
indexes `arg_string[-1]` and so raises on an empty argument; the model
treats the empty argument as the append branch. -/
def output_subtopics (db : DB) (arg_string : String) : List Nat :=
  let arg := if endsWithChar arg_string '.' then arg_string else arg_string ++ "."
  let ts := sortByLc (db.topics.filter
    (fun t => !t.deleted && beginsWith (lcString arg).data (lcString t.lc_name).data))
  ts.filterMap (fun t => t.id)

/-- The extra referenced topics a render of `raw` contributes through
`macro_fn`: only the `subtopics` call appends to
`TOPIC_LIST.extra_references` (the call name is stripped and lowercased,
the argument stripped, as in `macro_fn`). -/
def subtopicsExtra (db : DB) (raw : String) : List Nat :=
  (scanInlineCalls raw.data).foldl
    (fun acc call =>
      if lcString (trimString call.1) = "subtopics" then
        acc ++ output_subtopics db (trimString call.2)
      else acc) []

/-- `NascentTopic.save`: forces `lc_name` to the lowercased name, then—
unlike `Topic.save`—**silently returns without persisting** when the name
fails `Topic.valid_name`.  Only the creation path is exercised by the
source, so the model inserts a fresh row with the next primary key. -/
def NascentTopic.save (db : DB) (n : NascentTopic) : DB :=
  let n := { n with lc_name := lcString n.name }
  if !Topic.valid_name n.name then db
  else
    { db with
      nascents := db.nascents ++ [{ n with id := db.next_nascent_id }],
      next_nascent_id := db.next_nascent_id + 1 }

/-- The row `NascentTopic.save` inserts for a display name (fresh primary
key, lowercased `lc_name`). -/
def mkNascent (db : DB) (now : Int) (author : Nat) (display : String) : NascentTopic :=
  { id := db.next_nascent_id, name := display, lc_name := lcString display,
    created := now, author := author }

/-- The creation loop at the end of `prerender_content`: for every
remaining unresolved name, `self.nascent_topics.create(name =
topics_case[topic], lc_name = topic.lower(), author = self.author)` —
create the nascent row (with the original casing as display name) and link
it to the topic.  A name failing `Topic.valid_name` would make
`NascentTopic.save` skip the insert and the subsequent link raise; all call
sites validate the names first, and the model skips such a name. -/
def create_nascents (now : Int) (tc : List (String × String)) :
    Topic × DB → List String → Topic × DB
  | (t, db), [] => (t, db)
  | (t, db), nm :: rest =>
    let display := (caseOf tc nm).getD nm
    if Topic.valid_name display then
      let nid := db.next_nascent_id
      let db := NascentTopic.save db
        { id := 0, name := display, lc_name := lcString nm, created := now,
          author := t.author }
      create_nascents now tc
        ({ t with nascent_topics := t.nascent_topics ++ [nid] }, db) rest
    else
      create_nascents now tc (t, db) rest

/-- Unfolding of one creation step when the display name is valid. -/
theorem create_nascents_cons_valid (now : Int) (tc : List (String × String))
    (t : Topic) (db : DB) (nm : String) (rest : List String)
    (hv : Topic.valid_name ((caseOf tc nm).getD nm) = true) :
    create_nascents now tc (t, db) (nm :: rest) =
      create_nascents now tc
        ({ t with nascent_topics := t.nascent_topics ++ [db.next_nascent_id] },
         { db with
           nascents := db.nascents ++ [mkNascent db now t.author ((caseOf tc nm).getD nm)],
           next_nascent_id := db.next_nascent_id + 1 }) rest := by
  simp only [create_nascents]
  rw [if_pos hv]
  have hsave : NascentTopic.save db
      { id := 0, name := (caseOf tc nm).getD nm,
        lc_name := lcString nm, created := now, author := t.author } =
      { db with
        nascents := db.nascents ++ [mkNascent db now t.author ((caseOf tc nm).getD nm)],
        next_nascent_id := db.next_nascent_id + 1 } := by
    simp [NascentTopic.save, hv, mkNascent]
  rw [hsave]

/-- The relationship-update tail of `Topic.prerender_content`
(models.py, after the validity loop): resolve the discovered names against
live topics, set `references` (plus the extra references), keep the
existing nascents among the unresolved names and create the missing ones. -/
def reconcile (now : Int) (db : DB) (t : Topic) (topics : List String)
    (topics_case : List (String × String)) (extra_references : List Nat) :
    Topic × DB :=
  let refs : List Topic := db.topics.filter
    (fun x => !x.deleted && topics.contains x.lc_name)
  let t := { t with references := refs.filterMap (fun x : Topic => x.id) ++ extra_references }
  let exists_lc := refs.map (fun x : Topic => lcString x.name)
  let does_not_exist := topics.filter (fun nm => !exists_lc.contains nm)
  let nascent : List NascentTopic := db.nascents.filter
    (fun x => does_not_exist.contains x.lc_name)
  let t := { t with nascent_topics := nascent.map (fun x : NascentTopic => x.id) }
  let nascent_lc := nascent.map (fun x => lcString x.name)
  let remaining := does_not_exist.filter (fun nm => !nascent_lc.contains nm)
  create_nascents now topics_case (t, db) remaining

/-- `Topic.prerender_content`: renders `content_raw` through the parser
(collecting the discovery state), raises `BadName` when any discovered name
is invalid, and—when `update_relationships` is true—reconciles the
reference graph.  Raises happen before any database write, so the error
case leaves the store untouched (hence the `Except`). -/
def Topic.prerender_content (now : Int) (db : DB) (t : Topic)
    (update_relationships : Bool := true) : Except Err (Topic × DB) :=
  let tl := discoverList t.content_raw
  let extra := subtopicsExtra db t.content_raw
  let t := { t with content_formatted := String.mk (renderChars db t.content_raw.data) }
  if tl.topics.any (fun nm => !Topic.valid_name nm) then .error .badName
  else if !update_relationships then .ok (t, db)
  else .ok (reconcile now db t tl.topics tl.topics_case extra)

/-! ## `Topic.save` and the signal handlers

`Topic.save` branches on `self.id is None`.  The embedding splits the two
branches into `save_existing` (pk present: optional re-render, then
`UPDATE`; sends no signal) and `save_new` (pk absent: render without
relationship updates, `INSERT`, render again with relationship updates,
`UPDATE`, then send `topic_created`).  The split lets the handler of
`topic_created`, which itself saves only existing topics, be defined first.
Both branches share `save`'s prologue: force `lc_name` to the lowercased
name, fill `modified` when unset, and raise `BadName` for an invalid
name. -/

/-- `save`'s prologue: `self.lc_name = self.name.lower()` and the
`modified is None` default. -/
def Topic.save_prologue (now : Int) (t : Topic) : Topic :=
  { t with
    lc_name := lcString t.name,
    modified := some (t.modified.getD (servertime now)) }

/-- The `self.id is not None` branch of `Topic.save`. -/
def Topic.save_existing (now : Int) (db : DB) (t : Topic)
    (render : Bool := true) : Except Err DB := do
  let t := Topic.save_prologue now t
  if !Topic.valid_name t.name then throw .badName
  else if render then
    let (t, db) ← Topic.prerender_content now db t
    pure (db.updateTopic t)
  else
    pure (db.updateTopic t)

/-- Saves each topic of a list in turn (`for topic in ...: topic.save()`),
after applying `f` to it (`f = id` for a plain re-render; the rename
handler rewrites the raw content first).  An exception stops the loop and
propagates, keeping the store as it stands. -/
def saveEach (now : Int) (f : Topic → Topic) : DB → List Topic → DB × Option Err
  | db, [] => (db, none)
  | db, t :: ts =>
    match Topic.save_existing now db (f t) true with
    | .error e => (db, some e)
    | .ok db' => saveEach now f db' ts

/-- `catch_topic_created`: if a nascent topic matches the new topic's name
case-insensitively (`get(name__iexact = sender.name.lower())`; at most one
row can match thanks to the unique `lc_name` column), re-save every topic
referencing it and delete it; a missing nascent topic is silently
ignored. -/
def catch_topic_created (now : Int) (db : DB) (sender : Topic) : MRes :=
  match db.nascents.find? (fun n => lcString n.name == lcString sender.name) with
  | none => ⟨db, [], none⟩
  | some nascent =>
    let ts := db.topics.filter
      (fun x => !x.deleted && x.nascent_topics.contains nascent.id)
    match saveEach now (fun t => t) db ts with
    | (db', none) => ⟨db'.deleteNascent nascent.id, [], none⟩
    | (db', some e) => ⟨db', [], some e⟩

/-- The `self.id is None` branch of `Topic.save`: pre-render without
relationship updates, `INSERT`, re-render with relationship updates (the
row must exist before its foreign keys can), save again, then send
`topic_created` (which runs `catch_topic_created` synchronously). -/
def Topic.save_new (now : Int) (db : DB) (t : Topic)
    (render : Bool := true) : MRes :=
  let t := Topic.save_prologue now t
  if !Topic.valid_name t.name then ⟨db, [], some .badName⟩
  else
    match (if render then Topic.prerender_content now db t false else .ok (t, db)) with
    | .error e => ⟨db, [], some e⟩
    | .ok (t, db) =>
      let t := { t with id := some db.next_topic_id }
      let db := { db with topics := db.topics ++ [t],
                          next_topic_id := db.next_topic_id + 1 }
      if render then
        match Topic.prerender_content now db t true with
        | .error e => ⟨db, [], some e⟩
        | .ok (t, db) =>
          let db := db.updateTopic t
          let r := catch_topic_created now db t
          ⟨r.db, Event.created (t.id.getD 0) :: r.events, r.err⟩
      else
        let r := catch_topic_created now db t
        ⟨r.db, Event.created (t.id.getD 0) :: r.events, r.err⟩

/-- `Topic.rename_referenced_topic`: rewrite every wiki link naming the
renamed topic (matched case-insensitively on the lowercased old name) to
the new name, then save, which re-renders. -/
def Topic.rename_referenced_topic (now : Int) (db : DB) (t : Topic)
    (old_name new_name : String) : Except Err DB :=
  let old_lc := lcString old_name
  let t := { t with
    content_raw := String.mk (subLinks old_lc new_name t.content_raw.data) }
  Topic.save_existing now db t

/-- The content rewrite `rename_referenced_topic` applies before saving. -/
def rewriteLinks (old_name new_name : String) (t : Topic) : Topic :=
  { t with
    content_raw := String.mk (subLinks (lcString old_name) new_name t.content_raw.data) }

/-- `catch_topic_renamed`: rewrite the raw content of every live topic
referencing the renamed one (`sender.referenced_by.all()`, which uses the
deleted-filtering default manager), then behave as for a newly created
topic. -/
def catch_topic_renamed (now : Int) (db : DB) (sender : Topic)
    (old_name : String) : MRes :=
  let ts := db.topics.filter
    (fun x => !x.deleted && x.references.any (fun r => some r == sender.id))
  match saveEach now (rewriteLinks old_name sender.name) db ts with
  | (db', none) => catch_topic_created now db' sender
  | (db', some e) => ⟨db', [], some e⟩

/-! ## Versioning and the lifecycle operations -/

/-- `Topic._new_version`: append a `TopicVersion` carrying the topic's
current name, content, reason and author, with `created` copied from the
topic's `modified` timestamp (never a never-saved topic in the source, so
`modified` is always set there); then install the new reason and author on
the topic. -/
def Topic._new_version (db : DB) (t : Topic) (user : User) (reason : String) :
    DB × Topic :=
  let tv : TopicVersion :=
    { topic := t.id, name := t.name, author := t.author,
      content_raw := t.content_raw, created := t.modified.getD 0,
      reason := t.reason, normalized_created := t.modified.getD 0 }
  ({ db with versions := db.versions ++ [tv] },
   { t with reason := reason, author := user.id })

/-- `Topic.update_content`: the entry point for content changes.  Raises
`PermissionDenied` on a locked topic for non-staff; snapshots the current
state as a new version; installs the new content; stamps `modified`
(unless `update_modified` is false); saves (re-render + reconcile); sends
`topic_modified` always and `topic_notify` only for non-trivial changes. -/
def Topic.update_content (now : Int) (db : DB) (t : Topic) (user : User)
    (new_content : String) (reason : Option String := none)
    (update_modified : Bool := true) (trivial : Bool := false) : MRes :=
  if t.locked && !user.is_staff then ⟨db, [], some .permissionDenied⟩
  else
    let reason := match reason with
      | none => "Topic \"" ++ t.name ++ "\" edited"
      | some r => if r.length = 0 then "Topic \"" ++ t.name ++ "\" edited" else r
    let (db, t) := Topic._new_version db t user reason
    let t := { t with content_raw := new_content }
    let t := if update_modified then { t with modified := some (servertime now) } else t
    match Topic.save_existing now db t true with
    | .error e => ⟨db, [], some e⟩
    | .ok db' =>
      ⟨db', Event.modified (t.id.getD 0) trivial
              :: (if !trivial then [Event.notify (t.id.getD 0)] else []), none⟩

/-- `Topic.revert`: reverting to a version of a different topic takes the
guard branch.  The source there evaluates
`TopicException(_("'%s' is not a version of topic '%s'") % unicode(topic_version), self.name)`:
the format string has two placeholders but receives one argument, and the
constructor (arity one) receives two — Python raises `TypeError` at this
call, so that is what the model raises.  Otherwise the revert delegates to
`update_content` with the version's raw content. -/
def Topic.revert (now : Int) (db : DB) (t : Topic) (user : User)
    (topic_version : TopicVersion) (reason : Option String) : MRes :=
  if topic_version.topic ≠ t.id then ⟨db, [], some .typeError⟩
  else
    let reason := match reason with
      | none => "Topic \"" ++ t.name ++ "\" being reverted"
      | some r => r
    Topic.update_content now db t user topic_version.content_raw (some reason)

/-- `Topic.rename`: raises `PermissionDenied` on a locked topic for
non-staff; raises `TopicExists` when `Topic.objects.filter(name=new_name)`
— an exact, case-sensitive match on the display name over non-deleted
topics — is non-empty; otherwise snapshots a version, installs the new
name, stamps `modified`, saves and sends `topic_renamed`. -/
def Topic.rename (now : Int) (db : DB) (t : Topic) (user : User)
    (new_name : String) (reason : Option String := none) : MRes :=
  if t.locked && !user.is_staff then ⟨db, [], some .permissionDenied⟩
  else if (db.topics.filter (fun x => !x.deleted && x.name == new_name)).length ≠ 0 then
    ⟨db, [], some .topicExists⟩
  else
    let reason := match reason with
      | none => "topic renamed from \"" ++ t.name ++ "\" to \"" ++ new_name ++ "\""
      | some r => r
    let old_name := t.name
    let (db, t) := Topic._new_version db t user reason
    let t := { t with name := new_name, modified := some (servertime now) }
    match Topic.save_existing now db t true with
    | .error e => ⟨db, [], some e⟩
    | .ok db' =>
      let r := catch_topic_renamed now db' t old_name
      ⟨r.db, Event.renamed (t.id.getD 0) old_name :: r.events, r.err⟩

/-- `Topic.get_write_lock`: the advisory write-lock acquisition state
machine.  Returns the store and whether the lock was obtained. -/
def Topic.get_write_lock (now : Int) (db : DB) (t : Topic) (user : User)
    (force : Bool := false) : MRes × Bool :=
  match t.write_lock with
  | none =>
    let wl : WriteLock := { owner := user.id, expiry := now + WRITE_LOCK_EXPIRY }
    let t := { t with write_lock := some wl }
    match Topic.save_existing now db t false with
    | .error e => (⟨db, [], some e⟩, false)
    | .ok db' => (⟨db', [], none⟩, true)
  | some wl =>
    if wl.owner = user.id then
      if wl.expiry - now < 60 then
        let t := { t with write_lock := some { wl with expiry := now + WRITE_LOCK_EXPIRY } }
        (⟨db.updateTopic t, [], none⟩, true)
      else (⟨db, [], none⟩, true)
    else if wl.expiry < now || force then
      let t := { t with write_lock := some { owner := user.id, expiry := now + WRITE_LOCK_EXPIRY } }
      (⟨db.updateTopic t, [], none⟩, true)
    else (⟨db, [], none⟩, false)

/-! ## Lemmas: characters and names -/

theorem char_toNat_ofNat {m : Nat} (h : m < 55296) : (Char.ofNat m).toNat = m := by
  unfold Char.ofNat
  rw [dif_pos (Or.inl h)]
  rfl

/-- For a target character below `A` (such as `/` and `:`), lowering a
character yields it only if the character already was it. -/
theorem toLower_eq_iff {c d : Char} (hd : d.toNat < 65) :
    Char.toLower c = d ↔ c = d := by
  constructor
  · intro h
    simp only [Char.toLower] at h
    split at h
    · exfalso
      next hn =>
        have h2 := congrArg Char.toNat h
        rw [char_toNat_ofNat (by omega)] at h2
        omega
    · exact h
  · intro h
    subst h
    unfold Char.toLower
    rw [if_neg (by omega)]

theorem mem_map_toLower_low {l : List Char} {d : Char} (hd : d.toNat < 65) :
    d ∈ l.map Char.toLower ↔ d ∈ l := by
  rw [List.mem_map]
  constructor
  · rintro ⟨c, hc, h⟩
    rwa [(toLower_eq_iff hd).mp h] at hc
  · intro h
    exact ⟨d, h, (toLower_eq_iff hd).mpr rfl⟩

/-- `valid_name` unfolded to a decidable condition on the characters. -/
theorem valid_name_true_iff (s : String) :
    Topic.valid_name s = true ↔ ¬('/' ∈ s.data ∨ ':' ∈ s.data) := by
  simp only [Topic.valid_name]
  split
  · next h => simp_all
  · next h => simp_all

/-- `valid_name` is `false` exactly for names containing `/` or `:`. -/
theorem valid_name_eq_false_iff (s : String) :
    Topic.valid_name s = false ↔ '/' ∈ s.data ∨ ':' ∈ s.data := by
  rw [← Bool.not_eq_true, valid_name_true_iff, not_not]

/-- Validity of a name is insensitive to lowercasing: `/` and `:` are not
letters, and no letter lowers to them. -/
theorem valid_name_lcString (s : String) :
    Topic.valid_name (lcString s) = Topic.valid_name s := by
  have h1 : ('/' : Char).toNat < 65 := by decide
  have h2 : (':' : Char).toNat < 65 := by decide
  by_cases hs : '/' ∈ s.data ∨ ':' ∈ s.data
  · have hl : '/' ∈ (lcString s).data ∨ ':' ∈ (lcString s).data := by
      show '/' ∈ s.data.map Char.toLower ∨ ':' ∈ s.data.map Char.toLower
      rw [mem_map_toLower_low h1, mem_map_toLower_low h2]
      exact hs
    rw [(valid_name_eq_false_iff s).mpr hs,
        (valid_name_eq_false_iff (lcString s)).mpr hl]
  · have hl : ¬('/' ∈ (lcString s).data ∨ ':' ∈ (lcString s).data) := by
      show ¬('/' ∈ s.data.map Char.toLower ∨ ':' ∈ s.data.map Char.toLower)
      rw [mem_map_toLower_low h1, mem_map_toLower_low h2]
      exact hs
    rw [(valid_name_true_iff s).mpr hs,
        (valid_name_true_iff (lcString s)).mpr hl]

/-! ## Lemmas: store primitives -/

theorem updateTopic_versions (db : DB) (t : Topic) :
    (db.updateTopic t).versions = db.versions := rfl

theorem updateTopic_nascents (db : DB) (t : Topic) :
    (db.updateTopic t).nascents = db.nascents := rfl

theorem updateTopic_next_nascent (db : DB) (t : Topic) :
    (db.updateTopic t).next_nascent_id = db.next_nascent_id := rfl

/-- Replacing a row by primary key does not change the list of primary
keys. -/
theorem updateTopic_map_id (db : DB) (t : Topic) :
    (db.updateTopic t).topics.map (fun x => x.id) = db.topics.map (fun x => x.id) := by
  show (db.topics.map _).map _ = _
  rw [List.map_map]
  apply List.map_congr_left
  intro x _
  by_cases h : x.id = t.id
  · simp [Function.comp, h]
  · simp [Function.comp, h]

theorem find?_map_update {l : List Topic} {t : Topic} {g : Nat} (h : t.id ≠ some g) :
    (l.map (fun x => if x.id = t.id then t else x)).find? (fun x => x.id == some g)
      = l.find? (fun x => x.id == some g) := by
  induction l with
  | nil => rfl
  | cons a l ih =>
    simp only [List.map_cons]
    by_cases ha : a.id = t.id
    · have h1 : (t.id == some g) = false := by simpa using h
      have h2 : (a.id == some g) = false := ha ▸ h1
      rw [if_pos ha]
      simp only [List.find?, h1, h2]
      exact ih
    · rw [if_neg ha]
      simp only [List.find?]
      cases hb : (a.id == some g)
      · exact ih
      · rfl

/-- Looking up a key the replaced row does not carry is unaffected. -/
theorem findTopic_updateTopic_other {db : DB} {t : Topic} {g : Nat}
    (h : t.id ≠ some g) :
    (db.updateTopic t).findTopic g = db.findTopic g :=
  find?_map_update h

theorem find?_map_update_self {l : List Topic} {t : Topic} {g : Nat}
    (ht : t.id = some g) (hmem : ∃ x ∈ l, x.id = some g) :
    (l.map (fun x => if x.id = t.id then t else x)).find? (fun x => x.id == some g)
      = some t := by
  induction l with
  | nil => simp at hmem
  | cons a l ih =>
    simp only [List.map_cons]
    by_cases ha : a.id = t.id
    · have h1 : (t.id == some g) = true := by simpa using ht
      rw [if_pos ha]
      simp only [List.find?, h1]
    · have hag : (a.id == some g) = false := by
        simp only [beq_eq_false_iff_ne, ne_eq]
        intro hg
        exact ha (hg.trans ht.symm)
      rw [if_neg ha]
      simp only [List.find?, hag]
      apply ih
      rcases hmem with ⟨x, hx, hxg⟩
      rcases List.mem_cons.mp hx with rfl | hx
      · exact absurd (hxg.trans ht.symm) ha
      · exact ⟨x, hx, hxg⟩

/-- After an update keyed on `t.id = some g`, looking up `g` yields the new
row, provided some row carried `g` before. -/
theorem findTopic_updateTopic_self {db : DB} {t : Topic} {g : Nat}
    (ht : t.id = some g) (hmem : ∃ x ∈ db.topics, x.id = some g) :
    (db.updateTopic t).findTopic g = some t :=
  find?_map_update_self ht hmem

/-- Rows with a different primary key survive an update untouched. -/
theorem mem_updateTopic_of_ne {db : DB} {t x : Topic} (hx : x ∈ db.topics)
    (h : x.id ≠ t.id) : x ∈ (db.updateTopic t).topics := by
  have heq : (fun y => if y.id = t.id then t else y) x = x := by
    simp only [if_neg h]
  have := List.mem_map_of_mem (fun y => if y.id = t.id then t else y) hx
  rw [heq] at this
  exact this

/-! ## Lemmas: the discovery state -/

theorem caseOf_append (l1 l2 : List (String × String)) (nm : String) :
    caseOf (l1 ++ l2) nm =
      match caseOf l1 nm with
      | some v => some v
      | none => caseOf l2 nm := by
  induction l1 with
  | nil => rfl
  | cons kv l1 ih =>
    simp only [List.cons_append, caseOf]
    split <;> simp [ih]

theorem caseOf_eq_none_of_no_key {l : List (String × String)} {nm : String}
    (h : ∀ kv ∈ l, kv.1 ≠ nm) : caseOf l nm = none := by
  induction l with
  | nil => rfl
  | cons kv l ih =>
    simp only [caseOf]
    rw [if_neg (h kv (by simp))]
    exact ih (fun kv' h' => h kv' (List.mem_cons_of_mem _ h'))

/-- The invariant `path_fn` maintains on the discovery state: every
recorded lowercase name has a casing entry whose value lowers back to it,
and every casing key is a recorded name. -/
def TLinv (tl : TopicList) : Prop :=
  (∀ nm ∈ tl.topics, ∃ v, caseOf tl.topics_case nm = some v ∧ lcString v = nm) ∧
  (∀ kv ∈ tl.topics_case, kv.1 ∈ tl.topics)

theorem TLinv_path_fn {tl : TopicList} (h : TLinv tl) (s : String) :
    TLinv (tl.path_fn s) := by
  by_cases hc : (tl.topics.contains (lcString s)) = true
  · have hm : lcString s ∈ tl.topics := by simpa using hc
    have heq : tl.path_fn s = tl := by
      simp [TopicList.path_fn, hm]
    rw [heq]
    exact h
  · have hnm : lcString s ∉ tl.topics := by simpa using hc
    have heq : tl.path_fn s =
        { topics := tl.topics ++ [lcString s],
          topics_case := tl.topics_case ++ [(lcString s, s)] } := by
      simp [TopicList.path_fn, hnm]
    rw [heq]
    constructor
    · intro nm hmem
      rw [caseOf_append]
      rcases List.mem_append.mp hmem with hmem | hmem
      · rcases h.1 nm hmem with ⟨v, hv, hlv⟩
        exact ⟨v, by rw [hv], hlv⟩
      · have : nm = lcString s := by simpa using hmem
        subst this
        have hnone : caseOf tl.topics_case (lcString s) = none := by
          apply caseOf_eq_none_of_no_key
          intro kv hkv heq
          exact hnm (heq ▸ h.2 kv hkv)
        rw [hnone]
        exact ⟨s, by simp [caseOf], rfl⟩
    · intro kv hkv
      rcases List.mem_append.mp hkv with hkv | hkv
      · exact List.mem_append_left _ (h.2 kv hkv)
      · have : kv = (lcString s, s) := by simpa using hkv
        subst this
        simp

theorem TLinv_foldl {tl : TopicList} (h : TLinv tl) (l : List String) :
    TLinv (l.foldl TopicList.path_fn tl) := by
  induction l generalizing tl with
  | nil => exact h
  | cons s l ih => exact ih (TLinv_path_fn h s)

/-- Every name discovered for a text has a casing entry lowering back to
it. -/
theorem discoverList_case (raw : String) :
    ∀ nm ∈ (discoverList raw).topics,
      ∃ v, caseOf (discoverList raw).topics_case nm = some v ∧ lcString v = nm := by
  have : TLinv (discoverList raw) :=
    TLinv_foldl (by constructor <;> simp [caseOf]) _
  exact this.1

/-- The display name `create_nascents` would store for a discovered name
lowers back to that name. -/
theorem discoverList_caseD (raw : String) {nm : String}
    (h : nm ∈ (discoverList raw).topics) :
    lcString ((caseOf (discoverList raw).topics_case nm).getD nm) = nm := by
  rcases discoverList_case raw nm h with ⟨v, hv, hlv⟩
  rw [hv]
  exact hlv

/-! ## Lemmas: `create_nascents` -/

/-- The creation loop only touches the topic's `nascent_topics` list. -/
theorem create_nascents_topic_fields (now : Int) (tc : List (String × String))
    (t : Topic) (db : DB) (L : List String) :
    let r := create_nascents now tc (t, db) L
    r.1.id = t.id ∧ r.1.name = t.name ∧ r.1.lc_name = t.lc_name ∧
    r.1.content_raw = t.content_raw ∧
    r.1.content_formatted = t.content_formatted ∧
    r.1.modified = t.modified ∧ r.1.deleted = t.deleted ∧
    r.1.locked = t.locked ∧ r.1.write_lock = t.write_lock ∧
    r.1.author = t.author ∧ r.1.reason = t.reason ∧
    r.1.references = t.references := by
  induction L generalizing t db with
  | nil => exact ⟨rfl, rfl, rfl, rfl, rfl, rfl, rfl, rfl, rfl, rfl, rfl, rfl⟩
  | cons nm rest ih =>
    simp only [create_nascents]
    split
    · exact ih _ _
    · exact ih _ _

/-- The creation loop leaves topics, versions and the topic counter alone,
keeps every existing nascent row, and only appends rows with fresh primary
keys whose shape is that of `NascentTopic.save`: display name from the
casing map, `lc_name` the lowercased display name, the topic's author as
creator. -/
theorem create_nascents_db (now : Int) (tc : List (String × String))
    (t : Topic) (db : DB) (L : List String) :
    let r := create_nascents now tc (t, db) L
    r.2.topics = db.topics ∧ r.2.versions = db.versions ∧
    r.2.next_topic_id = db.next_topic_id ∧
    db.next_nascent_id ≤ r.2.next_nascent_id ∧
    (∀ m ∈ db.nascents, m ∈ r.2.nascents) ∧
    (∀ m ∈ r.2.nascents, m ∈ db.nascents ∨
      ∃ nm ∈ L, db.next_nascent_id ≤ m.id ∧
        m.name = (caseOf tc nm).getD nm ∧ m.lc_name = lcString m.name ∧
        m.author = t.author ∧ m.created = now) := by
  induction L generalizing t db with
  | nil =>
    exact ⟨rfl, rfl, rfl, Nat.le_refl _, fun m hm => hm, fun m hm => Or.inl hm⟩
  | cons nm rest ih =>
    by_cases hv : Topic.valid_name ((caseOf tc nm).getD nm) = true
    · rw [create_nascents_cons_valid now tc t db nm rest hv]
      set t' : Topic :=
        { t with nascent_topics := t.nascent_topics ++ [db.next_nascent_id] } with ht'
      set db' : DB :=
        { db with
          nascents := db.nascents ++ [mkNascent db now t.author ((caseOf tc nm).getD nm)],
          next_nascent_id := db.next_nascent_id + 1 } with hdb'
      obtain ⟨h1, h2, h3, h4, h5, h6⟩ := ih t' db'
      have hnext : db'.next_nascent_id = db.next_nascent_id + 1 := rfl
      refine ⟨h1, h2, h3, by omega, ?_, ?_⟩
      · intro m hm
        exact h5 m (List.mem_append_left _ hm)
      · intro m hm
        rcases h6 m hm with hm2 | ⟨nm2, hnm2, hid, hname, hlc, hauth, hcr⟩
        · rcases List.mem_append.mp hm2 with hm2 | hm2
          · exact Or.inl hm2
          · have hm3 : m = mkNascent db now t.author ((caseOf tc nm).getD nm) := by
              simpa using hm2
            subst hm3
            exact Or.inr ⟨nm, List.mem_cons_self _ _, Nat.le_refl _, rfl, rfl, rfl, rfl⟩
        · refine Or.inr ⟨nm2, List.mem_cons_of_mem _ hnm2, ?_, hname, ?_, ?_, hcr⟩
          · omega
          · exact hlc
          · exact hauth
    · have heq : create_nascents now tc (t, db) (nm :: rest) =
          create_nascents now tc (t, db) rest := by
        simp only [create_nascents]
        rw [if_neg hv]
      rw [heq]
      obtain ⟨h1, h2, h3, h4, h5, h6⟩ := ih t db
      refine ⟨h1, h2, h3, h4, h5, ?_⟩
      intro m hm
      rcases h6 m hm with hm2 | ⟨nm2, hnm2, hrest⟩
      · exact Or.inl hm2
      · exact Or.inr ⟨nm2, List.mem_cons_of_mem _ hnm2, hrest⟩

/-- Every name handed to the creation loop (whose display form is a valid
topic name, as on all call sites) ends up with a created nascent row linked
from the topic, and existing links survive. -/
theorem create_nascents_fulfils (now : Int) (tc : List (String × String))
    (t : Topic) (db : DB) (L : List String)
    (hval : ∀ nm ∈ L, Topic.valid_name ((caseOf tc nm).getD nm) = true)
    (hlc : ∀ nm ∈ L, lcString ((caseOf tc nm).getD nm) = nm) :
    let r := create_nascents now tc (t, db) L
    (∀ nm ∈ L, ∃ m ∈ r.2.nascents,
      m.lc_name = nm ∧ m.name = (caseOf tc nm).getD nm ∧
      m.author = t.author ∧ m.id ∈ r.1.nascent_topics) ∧
    (∀ i ∈ t.nascent_topics, i ∈ r.1.nascent_topics) := by
  induction L generalizing t db with
  | nil => exact ⟨by simp, fun i hi => hi⟩
  | cons nm rest ih =>
    rw [create_nascents_cons_valid now tc t db nm rest (hval nm (List.mem_cons_self _ _))]
    set t' : Topic :=
      { t with nascent_topics := t.nascent_topics ++ [db.next_nascent_id] } with ht'
    set db' : DB :=
      { db with
        nascents := db.nascents ++ [mkNascent db now t.author ((caseOf tc nm).getD nm)],
        next_nascent_id := db.next_nascent_id + 1 } with hdb'
    have hauth' : t'.author = t.author := rfl
    obtain ⟨hful, hmono⟩ := ih t' db'
      (fun nm2 h => hval nm2 (List.mem_cons_of_mem _ h))
      (fun nm2 h => hlc nm2 (List.mem_cons_of_mem _ h))
    constructor
    · intro nm2 hnm2
      rcases List.mem_cons.mp hnm2 with rfl | hnm2
      · refine ⟨mkNascent db now t.author ((caseOf tc nm2).getD nm2), ?_, ?_, rfl, rfl, ?_⟩
        · have hkeep := (create_nascents_db now tc t' db' rest).2.2.2.2.1
          apply hkeep
          simp [hdb']
        · exact hlc nm2 (List.mem_cons_self _ _)
        · apply hmono
          simp [ht', mkNascent]
      · rcases hful nm2 hnm2 with ⟨m, hm, ha, hb, hc, hd⟩
        exact ⟨m, hm, ha, hb, by rw [hc, hauth'], hd⟩
    · intro i hi
      apply hmono
      simp [ht', hi]

/-- Decomposition of the nascent link list after the creation loop: every
link is an old one or a freshly created id. -/
theorem create_nascents_ids (now : Int) (tc : List (String × String))
    (t : Topic) (db : DB) (L : List String) :
    ∀ i ∈ (create_nascents now tc (t, db) L).1.nascent_topics,
      i ∈ t.nascent_topics ∨ db.next_nascent_id ≤ i := by
  induction L generalizing t db with
  | nil => exact fun i hi => Or.inl hi
  | cons nm rest ih =>
    by_cases hv : Topic.valid_name ((caseOf tc nm).getD nm) = true
    · rw [create_nascents_cons_valid now tc t db nm rest hv]
      intro i hi
      rcases ih _ _ i hi with hi' | hi'
      · rcases List.mem_append.mp hi' with hi2 | hi2
        · exact Or.inl hi2
        · have : i = db.next_nascent_id := by simpa using hi2
          omega
      · have : db.next_nascent_id + 1 ≤ i := hi'
        omega
    · have heq : create_nascents now tc (t, db) (nm :: rest) =
          create_nascents now tc (t, db) rest := by
        simp only [create_nascents]
        rw [if_neg hv]
      rw [heq]
      exact ih t db

/-! ## Lemmas: `reconcile` -/

/-- The claim-side description of the unresolved discovered names: those
with no live topic of the same normalized name. -/
def unresolvedIn (db : DB) (topics : List String) : List String :=
  topics.filter (fun nm => !(db.topics.any (fun x => !x.deleted && x.lc_name == nm)))

/-- Bridge from the Bool `List.contains` used by the source's `in` checks
to propositional membership. -/
theorem contains_iff_mem {α : Type} [BEq α] [LawfulBEq α] {l : List α} {a : α} :
    l.contains a = true ↔ a ∈ l := List.elem_iff

theorem contains_eq_false_iff_not_mem {α : Type} [BEq α] [LawfulBEq α]
    {l : List α} {a : α} : l.contains a = false ↔ a ∉ l := by
  constructor
  · intro h hm
    have h2 := contains_iff_mem.mpr hm
    rw [h] at h2
    cases h2
  · intro h
    cases hb : l.contains a
    · rfl
    · exact absurd (contains_iff_mem.mp hb) h

theorem bool_eq_of_iff {a b : Bool} (h : a = true ↔ b = true) : a = b := by
  cases a <;> cases b <;> simp_all

/-- Full characterization of the reconciliation step, matching the
reference-graph contract: references become exactly the live topics whose
`lc_name` was discovered plus the extra references; the existing nascents
among the unresolved names stay linked; each unresolved name without an
existing nascent row gets one created with the recorded casing and the
topic's author. -/
theorem reconcile_spec (now : Int) (db : DB) (t : Topic) (topics : List String)
    (tc : List (String × String)) (extra : List Nat)
    (hWFlc : ∀ x ∈ db.topics, x.lc_name = lcString x.name)
    (hnlc : ∀ m ∈ db.nascents, m.lc_name = lcString m.name)
    (hnnd : (db.nascents.map (fun m => m.id)).Nodup)
    (hnb : ∀ m ∈ db.nascents, m.id < db.next_nascent_id)
    (hval : ∀ nm ∈ topics, Topic.valid_name nm = true)
    (hlc : ∀ nm ∈ topics, lcString ((caseOf tc nm).getD nm) = nm) :
    let r := reconcile now db t topics tc extra
    (r.1.id = t.id ∧ r.1.name = t.name ∧ r.1.lc_name = t.lc_name ∧
     r.1.content_raw = t.content_raw ∧
     r.1.content_formatted = t.content_formatted ∧
     r.1.modified = t.modified ∧ r.1.deleted = t.deleted ∧
     r.1.locked = t.locked ∧ r.1.write_lock = t.write_lock ∧
     r.1.author = t.author ∧ r.1.reason = t.reason) ∧
    (r.2.topics = db.topics ∧ r.2.versions = db.versions ∧
     r.2.next_topic_id = db.next_topic_id) ∧
    (∀ i, i ∈ r.1.references ↔
      (∃ x ∈ db.topics, x.deleted = false ∧ x.lc_name ∈ topics ∧ x.id = some i) ∨
      i ∈ extra) ∧
    (∀ m ∈ db.nascents,
      (m.id ∈ r.1.nascent_topics ↔ m.lc_name ∈ unresolvedIn db topics)) ∧
    (∀ nm ∈ unresolvedIn db topics, (∀ m ∈ db.nascents, m.lc_name ≠ nm) →
      ∃ m ∈ r.2.nascents, m.lc_name = nm ∧ m.name = (caseOf tc nm).getD nm ∧
        m.author = t.author ∧ m.id ∈ r.1.nascent_topics) ∧
    (∀ m ∈ db.nascents, m ∈ r.2.nascents) ∧
    (∀ m ∈ r.2.nascents, m ∈ db.nascents ∨
      (m.lc_name = lcString m.name ∧ m.lc_name ∈ topics ∧
       ¬∃ x ∈ db.topics, x.deleted = false ∧ x.lc_name = m.lc_name)) := by
  have hrefs_mem : ∀ x, x ∈ db.topics.filter
      (fun x => !x.deleted && topics.contains x.lc_name) ↔
      (x ∈ db.topics ∧ x.deleted = false ∧ x.lc_name ∈ topics) := by
    intro x
    rw [List.mem_filter]
    constructor
    · rintro ⟨hx, hcond⟩
      rw [Bool.and_eq_true] at hcond
      exact ⟨hx, by simpa using hcond.1, contains_iff_mem.mp hcond.2⟩
    · rintro ⟨hx, h1, h2⟩
      refine ⟨hx, ?_⟩
      rw [Bool.and_eq_true]
      exact ⟨by simpa using h1, contains_iff_mem.mpr h2⟩
  -- name the intermediate lists of `reconcile`
  set refsL : List Topic :=
    db.topics.filter (fun x => !x.deleted && topics.contains x.lc_name) with hrefsL
  set dne1 : List String :=
    topics.filter (fun nm => !(refsL.map (fun x : Topic => lcString x.name)).contains nm)
    with hdne1
  set nlist : List NascentTopic :=
    db.nascents.filter (fun x => dne1.contains x.lc_name) with hnlist
  set remaining : List String :=
    dne1.filter (fun nm => !(nlist.map (fun x => lcString x.name)).contains nm)
    with hremaining
  set t2 : Topic :=
    { t with references := refsL.filterMap (fun x : Topic => x.id) ++ extra,
             nascent_topics := nlist.map (fun x : NascentTopic => x.id) } with ht2
  have hunfold : reconcile now db t topics tc extra =
      create_nascents now tc (t2, db) remaining := rfl
  have hlive_iff : ∀ nm, nm ∈ topics →
      (((refsL.map (fun x : Topic => lcString x.name)).contains nm) = true ↔
       (∃ x ∈ db.topics, x.deleted = false ∧ x.lc_name = nm)) := by
    intro nm hnm
    rw [contains_iff_mem]
    constructor
    · intro hmem
      rcases List.mem_map.mp hmem with ⟨x, hx, hlcx⟩
      have hx2 := (hrefs_mem x).mp hx
      exact ⟨x, hx2.1, hx2.2.1, by rw [hWFlc x hx2.1, hlcx]⟩
    · rintro ⟨x, hx, hdel, hlcx⟩
      have hxr : x ∈ refsL := (hrefs_mem x).mpr ⟨hx, hdel, by rw [hlcx]; exact hnm⟩
      have hmm : lcString x.name ∈ refsL.map (fun x : Topic => lcString x.name) :=
        List.mem_map_of_mem _ hxr
      rwa [← hWFlc x hx, hlcx] at hmm
  have hdne1_mem : ∀ nm, nm ∈ dne1 ↔
      (nm ∈ topics ∧ ¬∃ x ∈ db.topics, x.deleted = false ∧ x.lc_name = nm) := by
    intro nm
    rw [hdne1, List.mem_filter]
    constructor
    · rintro ⟨hnm, hcond⟩
      have hcf : ((refsL.map (fun x : Topic => lcString x.name)).contains nm) = false := by
        simpa using hcond
      refine ⟨hnm, ?_⟩
      intro hex
      have := (hlive_iff nm hnm).mpr hex
      rw [hcf] at this
      cases this
    · rintro ⟨hnm, hno⟩
      refine ⟨hnm, ?_⟩
      have hcf : ((refsL.map (fun x : Topic => lcString x.name)).contains nm) = false := by
        cases hb : ((refsL.map (fun x : Topic => lcString x.name)).contains nm)
        · rfl
        · exact absurd ((hlive_iff nm hnm).mp hb) hno
      rw [hcf]
      rfl
  have hdne_eq : dne1 = unresolvedIn db topics := by
    rw [hdne1, unresolvedIn]
    apply List.filter_congr
    intro nm hnm
    have rhs_iff : ((db.topics.any (fun x => !x.deleted && x.lc_name == nm)) = true) ↔
        (∃ x ∈ db.topics, x.deleted = false ∧ x.lc_name = nm) := by
      rw [List.any_eq_true]
      constructor
      · rintro ⟨x, hx, hcond⟩
        rw [Bool.and_eq_true] at hcond
        exact ⟨x, hx, by simpa using hcond.1, by simpa using hcond.2⟩
      · rintro ⟨x, hx, h1, h2⟩
        refine ⟨x, hx, ?_⟩
        rw [Bool.and_eq_true]
        exact ⟨by simpa using h1, by simpa using h2⟩
    exact congrArg (fun b => !b)
      (bool_eq_of_iff ((hlive_iff nm hnm).trans rhs_iff.symm))
  have hsub_rem : ∀ nm ∈ remaining, nm ∈ topics := by
    intro nm hnm
    have h1 := (List.mem_filter.mp hnm).1
    exact (List.mem_filter.mp h1).1
  have hval_rem : ∀ nm ∈ remaining, Topic.valid_name ((caseOf tc nm).getD nm) = true := by
    intro nm hnm
    have h1 := hlc nm (hsub_rem nm hnm)
    have h2 := valid_name_lcString ((caseOf tc nm).getD nm)
    rw [h1] at h2
    rw [← h2]
    exact hval nm (hsub_rem nm hnm)
  have hlc_rem : ∀ nm ∈ remaining, lcString ((caseOf tc nm).getD nm) = nm :=
    fun nm hnm => hlc nm (hsub_rem nm hnm)
  have htf := create_nascents_topic_fields now tc t2 db remaining
  have hdb := create_nascents_db now tc t2 db remaining
  have hful := create_nascents_fulfils now tc t2 db remaining hval_rem hlc_rem
  have hids := create_nascents_ids now tc t2 db remaining
  intro r
  rw [show r = reconcile now db t topics tc extra from rfl, hunfold] at *
  obtain ⟨f1, f2, f3, f4, f5, f6, f7, f8, f9, f10, f11, f12⟩ := htf
  obtain ⟨g1, g2, g3, g4, g5, g6⟩ := hdb
  refine ⟨⟨f1, f2, f3, f4, f5, f6, f7, f8, f9, f10, f11⟩, ⟨g1, g2, g3⟩, ?_, ?_, ?_, g5, ?_⟩
  · -- references characterization
    intro i
    rw [f12]
    have ht2r : t2.references = refsL.filterMap (fun x : Topic => x.id) ++ extra := rfl
    rw [ht2r, List.mem_append, List.mem_filterMap]
    constructor
    · rintro (⟨x, hx, hxi⟩ | hi)
      · have hx2 := (hrefs_mem x).mp hx
        exact Or.inl ⟨x, hx2.1, hx2.2.1, hx2.2.2, hxi⟩
      · exact Or.inr hi
    · rintro (⟨x, hx, hdel, hlcx, hxi⟩ | hi)
      · exact Or.inl ⟨x, (hrefs_mem x).mpr ⟨hx, hdel, hlcx⟩, hxi⟩
      · exact Or.inr hi
  · -- existing nascent rows keep their link exactly on unresolved names
    intro m hm
    rw [← hdne_eq]
    constructor
    · intro hmem
      rcases hids m.id hmem with hold | hfresh
      · have ht2n : t2.nascent_topics = nlist.map (fun x : NascentTopic => x.id) := rfl
        rw [ht2n] at hold
        rcases List.mem_map.mp hold with ⟨m2, hm2, hm2id⟩
        have hm2db : m2 ∈ db.nascents := (List.mem_filter.mp hm2).1
        have hm2eq : m2 = m := List.inj_on_of_nodup_map hnnd hm2db hm hm2id
        subst hm2eq
        exact contains_iff_mem.mp (List.mem_filter.mp hm2).2
      · exact absurd hfresh (by have := hnb m hm; omega)
    · intro hmem
      have hm2 : m ∈ nlist := by
        rw [hnlist, List.mem_filter]
        exact ⟨hm, contains_iff_mem.mpr hmem⟩
      have hm3 : m.id ∈ t2.nascent_topics := by
        have ht2n : t2.nascent_topics = nlist.map (fun x : NascentTopic => x.id) := rfl
        rw [ht2n]
        exact List.mem_map_of_mem _ hm2
      exact hful.2 m.id hm3
  · -- unresolved names with no nascent row get one created
    intro nm hnm hno
    have hrem : nm ∈ remaining := by
      rw [hremaining, List.mem_filter]
      rw [← hdne_eq] at hnm
      refine ⟨hnm, ?_⟩
      have hcf : ((nlist.map (fun x => lcString x.name)).contains nm) = false := by
        apply contains_eq_false_iff_not_mem.mpr
        intro hmem
        rcases List.mem_map.mp hmem with ⟨m2, hm2, hm2lc⟩
        have hm2db : m2 ∈ db.nascents := (List.mem_filter.mp hm2).1
        exact hno m2 hm2db (by rw [hnlc m2 hm2db, hm2lc])
      rw [hcf]
      rfl
    rcases hful.1 nm hrem with ⟨m, hm, ha, hb2, hc, hd⟩
    exact ⟨m, hm, ha, hb2, by rw [hc], hd⟩
  · -- new nascent rows target names with no live topic
    intro m hm
    rcases g6 m hm with hold | ⟨nm, hnm, _, hname, hlcm, _, _⟩
    · exact Or.inl hold
    · right
      have hnm_dne : nm ∈ dne1 := (List.mem_filter.mp hnm).1
      have hnm_top : nm ∈ topics := hsub_rem nm hnm
      have hmlc : m.lc_name = nm := by
        rw [hlcm, hname]
        exact hlc nm hnm_top
      refine ⟨hlcm, by rw [hmlc]; exact hnm_top, ?_⟩
      rw [hmlc]
      exact ((hdne1_mem nm).mp hnm_dne).2

/-! ## Lemmas: `prerender_content` and `save_existing` -/

/-- On a text whose discovered names are all valid, `prerender_content`
with relationship updates reduces to rendering plus `reconcile`. -/
theorem prerender_ok (now : Int) (db : DB) (t : Topic)
    (hvalid : ∀ nm ∈ linkNames t.content_raw, Topic.valid_name nm = true) :
    Topic.prerender_content now db t true =
      .ok (reconcile now db
        { t with content_formatted := String.mk (renderChars db t.content_raw.data) }
        (discoverList t.content_raw).topics
        (discoverList t.content_raw).topics_case
        (subtopicsExtra db t.content_raw)) := by
  unfold Topic.prerender_content
  have hany : ((discoverList t.content_raw).topics.any
      (fun nm => !Topic.valid_name nm)) = false := by
    rw [List.any_eq_false]
    intro nm hnm
    rw [hvalid nm hnm]
    simp
  simp [hany]

/-- A single invalid discovered name aborts the render with `BadName`,
whatever the `update_relationships` flag. -/
theorem prerender_badname (now : Int) (db : DB) (t : Topic) (u : Bool)
    (hbad : ∃ nm ∈ linkNames t.content_raw, Topic.valid_name nm = false) :
    Topic.prerender_content now db t u = .error .badName := by
  unfold Topic.prerender_content
  rcases hbad with ⟨nm, hnm, hv⟩
  have hany : ((discoverList t.content_raw).topics.any
      (fun nm => !Topic.valid_name nm)) = true := by
    rw [List.any_eq_true]
    exact ⟨nm, hnm, by rw [hv]; rfl⟩
  simp [hany]

/-- The `save` prologue is the identity on a row whose `lc_name` is
already derived and whose `modified` is already stamped. -/
theorem save_prologue_eq (now : Int) {t : Topic}
    (hlc : t.lc_name = lcString t.name) {m : Int} (hm : t.modified = some m) :
    Topic.save_prologue now t = t := by
  have hm2 := hm
  unfold Topic.save_prologue
  rw [← hlc, hm]
  show ({ t with lc_name := t.lc_name, modified := some m } : Topic) = t
  rw [← hm2]

/-- The creation loop preserves distinctness and the counter bound of the
nascent primary keys. -/
theorem create_nascents_wf (now : Int) (tc : List (String × String))
    (t : Topic) (db : DB) (L : List String)
    (hnd : (db.nascents.map (fun m => m.id)).Nodup)
    (hb : ∀ m ∈ db.nascents, m.id < db.next_nascent_id) :
    let r := create_nascents now tc (t, db) L
    ((r.2.nascents.map (fun m => m.id)).Nodup ∧
     ∀ m ∈ r.2.nascents, m.id < r.2.next_nascent_id) := by
  induction L generalizing t db with
  | nil => exact ⟨hnd, hb⟩
  | cons nm rest ih =>
    by_cases hv : Topic.valid_name ((caseOf tc nm).getD nm) = true
    · rw [create_nascents_cons_valid now tc t db nm rest hv]
      apply ih
      · rw [List.map_append, List.nodup_append]
        refine ⟨hnd, by simp, ?_⟩
        intro i hi hj
        have : i = db.next_nascent_id := by simpa [mkNascent] using hj
        subst this
        rcases List.mem_map.mp hi with ⟨m2, hm2, hm2id⟩
        have := hb m2 hm2
        omega
      · intro m hm
        rcases List.mem_append.mp hm with hm2 | hm2
        · have := hb m hm2
          show m.id < db.next_nascent_id + 1
          omega
        · have : m = mkNascent db now t.author ((caseOf tc nm).getD nm) := by
            simpa using hm2
          subst this
          show db.next_nascent_id < db.next_nascent_id + 1
          omega
    · have heq : create_nascents now tc (t, db) (nm :: rest) =
          create_nascents now tc (t, db) rest := by
        simp only [create_nascents]
        rw [if_neg hv]
      rw [heq]
      exact ih t db hnd hb

/-- `reconcile` preserves distinctness and bounds of the nascent primary
keys and only advances the counter. -/
theorem reconcile_nascent_wf (now : Int) (db : DB) (t : Topic)
    (topics : List String) (tc : List (String × String)) (extra : List Nat)
    (hnd : (db.nascents.map (fun m => m.id)).Nodup)
    (hb : ∀ m ∈ db.nascents, m.id < db.next_nascent_id) :
    let r := reconcile now db t topics tc extra
    ((r.2.nascents.map (fun m => m.id)).Nodup ∧
     (∀ m ∈ r.2.nascents, m.id < r.2.next_nascent_id) ∧
     db.next_nascent_id ≤ r.2.next_nascent_id) := by
  set refsL : List Topic :=
    db.topics.filter (fun x => !x.deleted && topics.contains x.lc_name) with hrefsL
  set dne1 : List String :=
    topics.filter (fun nm => !(refsL.map (fun x : Topic => lcString x.name)).contains nm)
    with hdne1
  set nlist : List NascentTopic :=
    db.nascents.filter (fun x => dne1.contains x.lc_name) with hnlist
  set remaining : List String :=
    dne1.filter (fun nm => !(nlist.map (fun x => lcString x.name)).contains nm)
    with hremaining
  set t2 : Topic :=
    { t with references := refsL.filterMap (fun x : Topic => x.id) ++ extra,
             nascent_topics := nlist.map (fun x : NascentTopic => x.id) } with ht2
  have hunfold : reconcile now db t topics tc extra =
      create_nascents now tc (t2, db) remaining := rfl
  intro r
  rw [show r = reconcile now db t topics tc extra from rfl, hunfold]
  have hwf := create_nascents_wf now tc t2 db remaining hnd hb
  have hdb := create_nascents_db now tc t2 db remaining
  exact ⟨hwf.1, hwf.2, hdb.2.2.2.1⟩

theorem find?_of_mem_id {l : List Topic} {x : Topic} {g : Nat}
    (hx : x ∈ l) (hg : x.id = some g)
    (hnd : (l.map (fun y => y.id)).Nodup) :
    l.find? (fun y => y.id == some g) = some x := by
  induction l with
  | nil => simp at hx
  | cons a l ih =>
    rcases List.mem_cons.mp hx with rfl | hx2
    · exact List.find?_cons_of_pos _ (by simpa using hg)
    · by_cases ha : a.id = some g
      · have hax : a = x := by
          have hinj := List.inj_on_of_nodup_map hnd
          exact hinj (List.mem_cons_self a l) (List.mem_cons_of_mem a hx2)
            (by rw [ha, hg])
        rw [hax]
        exact List.find?_cons_of_pos _ (by simpa using hg)
      · rw [List.find?_cons_of_neg _ (by simpa using ha)]
        exact ih hx2 (List.nodup_cons.mp (by simpa using hnd)).2

/-- In a store with distinct primary keys, looking up a member row's key
finds that very row. -/
theorem findTopic_of_mem {db : DB} {x : Topic} {g : Nat}
    (hx : x ∈ db.topics) (hg : x.id = some g)
    (hnd : (db.topics.map (fun y => y.id)).Nodup) :
    db.findTopic g = some x :=
  find?_of_mem_id hx hg hnd

/-- Each row of an updated store is the new row or an original one. -/
theorem mem_updateTopic {db : DB} {t x : Topic}
    (hx : x ∈ (db.updateTopic t).topics) : x = t ∨ x ∈ db.topics := by
  rcases List.mem_map.mp hx with ⟨y, hy, hmap⟩
  by_cases hid : y.id = t.id
  · left
    rw [← hmap]
    simp [hid]
  · right
    rw [← hmap]
    simpa [hid] using hy

/-- Successful save of an existing, well-formed row: the row is re-rendered,
reconciled against the current store and written back; versions are
untouched; nascent rows only grow, and only with rows naming no live
topic. -/
theorem save_existing_spec (now : Int) (db : DB) (t : Topic) {m : Int}
    (hname : Topic.valid_name t.name = true)
    (hlct : t.lc_name = lcString t.name) (hm : t.modified = some m)
    (hvalid : ∀ nm ∈ linkNames t.content_raw, Topic.valid_name nm = true)
    (hWFlc : ∀ x ∈ db.topics, x.lc_name = lcString x.name)
    (hnlc : ∀ m2 ∈ db.nascents, m2.lc_name = lcString m2.name)
    (hnnd : (db.nascents.map (fun m2 => m2.id)).Nodup)
    (hnb : ∀ m2 ∈ db.nascents, m2.id < db.next_nascent_id) :
    ∃ (t' : Topic) (db2 : DB),
      Topic.save_existing now db t true = .ok (db2.updateTopic t') ∧
      t'.id = t.id ∧ t'.name = t.name ∧ t'.lc_name = t.lc_name ∧
      t'.content_raw = t.content_raw ∧ t'.modified = t.modified ∧
      t'.deleted = t.deleted ∧ t'.locked = t.locked ∧
      t'.write_lock = t.write_lock ∧ t'.author = t.author ∧
      t'.reason = t.reason ∧
      db2.topics = db.topics ∧ db2.versions = db.versions ∧
      db2.next_topic_id = db.next_topic_id ∧
      (∀ i, (∃ x ∈ db.topics, x.deleted = false ∧
          x.lc_name ∈ linkNames t.content_raw ∧ x.id = some i) →
        i ∈ t'.references) ∧
      (∀ m2 ∈ db.nascents, m2 ∈ db2.nascents) ∧
      (∀ m2 ∈ db2.nascents, m2 ∈ db.nascents ∨
        (m2.lc_name = lcString m2.name ∧
         ¬∃ x ∈ db.topics, x.deleted = false ∧ x.lc_name = m2.lc_name)) ∧
      (db2.nascents.map (fun m2 => m2.id)).Nodup ∧
      (∀ m2 ∈ db2.nascents, m2.id < db2.next_nascent_id) ∧
      db.next_nascent_id ≤ db2.next_nascent_id := by
  set tf : Topic :=
    { t with content_formatted := String.mk (renderChars db t.content_raw.data) } with htf
  have hcase : ∀ nm ∈ (discoverList t.content_raw).topics,
      lcString ((caseOf (discoverList t.content_raw).topics_case nm).getD nm) = nm :=
    fun nm hnm => discoverList_caseD t.content_raw hnm
  have hspec := reconcile_spec now db tf (discoverList t.content_raw).topics
    (discoverList t.content_raw).topics_case (subtopicsExtra db t.content_raw)
    hWFlc hnlc hnnd hnb hvalid hcase
  set rr := reconcile now db tf (discoverList t.content_raw).topics
    (discoverList t.content_raw).topics_case (subtopicsExtra db t.content_raw) with hrr
  obtain ⟨hfields, hdbs, hrefs, _, _, hkeep, hnew⟩ := hspec
  refine ⟨rr.1, rr.2, ?_, ?_⟩
  · -- the run reduces to the reconciled write-back
    unfold Topic.save_existing
    rw [save_prologue_eq now hlct hm]
    have hpre := prerender_ok now db t hvalid
    rw [← htf, ← hrr] at hpre
    simp [hname, hpre]
  · have hwf := reconcile_nascent_wf now db tf (discoverList t.content_raw).topics
      (discoverList t.content_raw).topics_case (subtopicsExtra db t.content_raw)
      hnnd hnb
    rw [← hrr] at hwf
    refine ⟨hfields.1, hfields.2.1, hfields.2.2.1, hfields.2.2.2.1, ?_⟩
    refine ⟨hfields.2.2.2.2.2.1, hfields.2.2.2.2.2.2.1, hfields.2.2.2.2.2.2.2.1,
      hfields.2.2.2.2.2.2.2.2.1, hfields.2.2.2.2.2.2.2.2.2.1,
      hfields.2.2.2.2.2.2.2.2.2.2, hdbs.1, hdbs.2.1, hdbs.2.2, ?_, hkeep, ?_,
      hwf.1, hwf.2.1, hwf.2.2⟩
    · intro i hi
      exact (hrefs i).mpr (Or.inl hi)
    · intro m2 hm2
      rcases hnew m2 hm2 with hold | ⟨ha, _, hc⟩
      · exact Or.inl hold
      · exact Or.inr ⟨ha, hc⟩

/-- An invalid discovered name makes the save of an existing topic raise
`BadName` (without touching the store, as the `Except` shape shows). -/
theorem save_existing_badname (now : Int) (db : DB) (t : Topic)
    (hname : Topic.valid_name t.name = true)
    (hbad : ∃ nm ∈ linkNames t.content_raw, Topic.valid_name nm = false) :
    Topic.save_existing now db t true = .error .badName := by
  unfold Topic.save_existing
  have hn2 : Topic.valid_name (Topic.save_prologue now t).name = true := hname
  have hb2 : ∃ nm ∈ linkNames (Topic.save_prologue now t).content_raw,
      Topic.valid_name nm = false := hbad
  have hpre := prerender_badname now db (Topic.save_prologue now t) true hb2
  simp [hn2, hpre]

/-! ## Lemmas: the handler save loop -/

/-- Specification of `saveEach`: saving a list of distinct stored rows
(after an id/name/flag-preserving content rewrite `f`) succeeds when every
rewritten content renders cleanly; versions are untouched; every saved row
ends up re-rendered against a store whose live rows kept their identity, so
its references pick up every live topic its rewritten content names; rows
outside the list are untouched; nascent rows only grow, and only with rows
naming no live topic. -/
theorem saveEach_spec (now : Int) (f : Topic → Topic) (db : DB) (L : List Topic)
    (hf_id : ∀ T, (f T).id = T.id) (hf_name : ∀ T, (f T).name = T.name)
    (hf_lc : ∀ T, (f T).lc_name = T.lc_name)
    (hf_mod : ∀ T, (f T).modified = T.modified)
    (hf_del : ∀ T, (f T).deleted = T.deleted)
    (hLdb : ∀ T ∈ L, T ∈ db.topics)
    (hLnd : (L.map (fun T => T.id)).Nodup)
    (hWFid : ∀ x ∈ db.topics, x.id.isSome)
    (hWFlc : ∀ x ∈ db.topics, x.lc_name = lcString x.name)
    (hWFval : ∀ x ∈ db.topics, Topic.valid_name x.name = true)
    (hWFmod : ∀ x ∈ db.topics, x.modified.isSome)
    (hWFnd : (db.topics.map (fun x => x.id)).Nodup)
    (hnlc : ∀ m ∈ db.nascents, m.lc_name = lcString m.name)
    (hnnd : (db.nascents.map (fun m => m.id)).Nodup)
    (hnb : ∀ m ∈ db.nascents, m.id < db.next_nascent_id)
    (hval : ∀ T ∈ L, ∀ nm ∈ linkNames (f T).content_raw,
      Topic.valid_name nm = true) :
    let r := saveEach now f db L
    r.2 = none ∧
    r.1.versions = db.versions ∧
    r.1.topics.map (fun x => x.id) = db.topics.map (fun x => x.id) ∧
    r.1.next_topic_id = db.next_topic_id ∧
    (∀ g : Nat, (∀ T ∈ L, T.id ≠ some g) → r.1.findTopic g = db.findTopic g) ∧
    (∀ g : Nat, ∀ row0, db.findTopic g = some row0 →
      ∃ row1, r.1.findTopic g = some row1 ∧
        row1.id = row0.id ∧ row1.name = row0.name ∧
        row1.lc_name = row0.lc_name ∧ row1.deleted = row0.deleted ∧
        row1.modified = row0.modified) ∧
    (∀ T ∈ L, ∀ g : Nat, T.id = some g →
      ∃ row, r.1.findTopic g = some row ∧
        row.id = T.id ∧ row.name = T.name ∧ row.lc_name = T.lc_name ∧
        row.deleted = T.deleted ∧ row.modified = T.modified ∧
        row.content_raw = (f T).content_raw ∧
        (∀ i : Nat, (∃ x ∈ db.topics, x.deleted = false ∧
            x.lc_name ∈ linkNames (f T).content_raw ∧ x.id = some i) →
          i ∈ row.references)) ∧
    (∀ m ∈ db.nascents, m ∈ r.1.nascents) ∧
    (∀ m ∈ r.1.nascents, m ∈ db.nascents ∨
      (m.lc_name = lcString m.name ∧
       ¬∃ x ∈ db.topics, x.deleted = false ∧ x.lc_name = m.lc_name)) ∧
    (r.1.nascents.map (fun m => m.id)).Nodup ∧
    (∀ m ∈ r.1.nascents, m.id < r.1.next_nascent_id) ∧
    db.next_nascent_id ≤ r.1.next_nascent_id := by
  induction L generalizing db with
  | nil =>
    exact ⟨rfl, rfl, rfl, rfl, fun g _ => rfl, fun g row0 h => ⟨row0, h, rfl, rfl, rfl, rfl, rfl⟩,
      by simp, fun m hm => hm, fun m hm => Or.inl hm, hnnd, hnb, Nat.le_refl _⟩
  | cons T ts ih =>
    -- data about the head row
    have hTdb : T ∈ db.topics := hLdb T (List.mem_cons_self _ _)
    obtain ⟨gT, hgT⟩ := Option.isSome_iff_exists.mp (hWFid T hTdb)
    obtain ⟨mT, hmT⟩ := Option.isSome_iff_exists.mp (hWFmod T hTdb)
    -- the head save succeeds via `save_existing_spec`
    have hspec := save_existing_spec now db (f T)
      (by rw [hf_name]; exact hWFval T hTdb)
      (by rw [hf_lc, hf_name]; exact hWFlc T hTdb)
      (by rw [hf_mod]; exact hmT)
      (hval T (List.mem_cons_self _ _)) hWFlc hnlc hnnd hnb
    obtain ⟨t', db2, hrun, ht'id, ht'name, ht'lc, ht'raw, ht'mod, ht'del, _,
      _, _, _, hdb2top, hdb2ver, hdb2next, ht'refs, hn_keep, hn_new,
      hn_nd, hn_b, hn_le⟩ := hspec
    set db1 : DB := db2.updateTopic t' with hdb1
    have hstep : saveEach now f db (T :: ts) = saveEach now f db1 ts := by
      simp only [saveEach, hrun]
    -- identity facts carried from db to db1
    have hids1 : db1.topics.map (fun x => x.id) = db.topics.map (fun x => x.id) := by
      rw [hdb1, updateTopic_map_id, hdb2top]
    have hmem1 : ∀ x ∈ db1.topics, x = t' ∨ x ∈ db.topics := by
      intro x hx
      rcases mem_updateTopic hx with h | h
      · exact Or.inl h
      · right
        rw [← hdb2top]
        exact h
    have ht'id2 : t'.id = some gT := by rw [ht'id, hf_id]; exact hgT
    have hfind1_other : ∀ g : Nat, g ≠ gT → db1.findTopic g = db.findTopic g := by
      intro g hg
      rw [hdb1, findTopic_updateTopic_other (by rw [ht'id2]; simpa using (Ne.symm hg))]
      show db2.topics.find? _ = db.topics.find? _
      rw [hdb2top]
    have hfind1_self : db1.findTopic gT = some t' := by
      rw [hdb1]
      apply findTopic_updateTopic_self ht'id2
      rw [hdb2top]
      exact ⟨T, hTdb, hgT⟩
    -- db1 satisfies the well-formedness pack
    have hWFid1 : ∀ x ∈ db1.topics, x.id.isSome := by
      intro x hx
      rcases hmem1 x hx with rfl | hx2
      · rw [ht'id2]; rfl
      · exact hWFid x hx2
    have hWFlc1 : ∀ x ∈ db1.topics, x.lc_name = lcString x.name := by
      intro x hx
      rcases hmem1 x hx with rfl | hx2
      · rw [ht'lc, ht'name, hf_lc, hf_name]
        exact hWFlc T hTdb
      · exact hWFlc x hx2
    have hWFval1 : ∀ x ∈ db1.topics, Topic.valid_name x.name = true := by
      intro x hx
      rcases hmem1 x hx with rfl | hx2
      · rw [ht'name, hf_name]; exact hWFval T hTdb
      · exact hWFval x hx2
    have hWFmod1 : ∀ x ∈ db1.topics, x.modified.isSome := by
      intro x hx
      rcases hmem1 x hx with rfl | hx2
      · rw [ht'mod, hf_mod, hmT]; rfl
      · exact hWFmod x hx2
    have hWFnd1 : (db1.topics.map (fun x => x.id)).Nodup := by
      rw [hids1]; exact hWFnd
    have hnlc1 : ∀ m ∈ db1.nascents, m.lc_name = lcString m.name := by
      intro m hm
      rcases hn_new m hm with h | h
      · exact hnlc m h
      · exact h.1
    -- the tail rows are still stored, distinct rows
    have hLnd' : (T.id :: ts.map (fun T => T.id)).Nodup := by
      rw [← List.map_cons]
      exact hLnd
    have hTnotts : ∀ T2 ∈ ts, T2.id ≠ T.id := by
      intro T2 hT2 he
      exact (List.nodup_cons.mp hLnd').1 (he ▸ List.mem_map_of_mem _ hT2)
    have hLdb1 : ∀ T2 ∈ ts, T2 ∈ db1.topics := by
      intro T2 hT2
      rw [hdb1]
      apply mem_updateTopic_of_ne
      · rw [hdb2top]
        exact hLdb T2 (List.mem_cons_of_mem _ hT2)
      · rw [ht'id, hf_id]
        exact hTnotts T2 hT2
    have hLnd1 : (ts.map (fun T => T.id)).Nodup :=
      (List.nodup_cons.mp hLnd').2
    have hval1 : ∀ T2 ∈ ts, ∀ nm ∈ linkNames (f T2).content_raw,
        Topic.valid_name nm = true :=
      fun T2 h => hval T2 (List.mem_cons_of_mem _ h)
    -- apply the induction hypothesis at db1
    have hih := ih db1 hLdb1 hLnd1 hWFid1 hWFlc1 hWFval1 hWFmod1 hWFnd1
      hnlc1 hn_nd hn_b hval1
    obtain ⟨c1, c2, c3, c4, c5, c6, c7, c8, c9, c10, c11, c12⟩ := hih
    -- one-step row alignment, then compose with the tail's
    have halign1 : ∀ g : Nat, ∀ row0, db.findTopic g = some row0 →
        ∃ row1, db1.findTopic g = some row1 ∧
          row1.id = row0.id ∧ row1.name = row0.name ∧
          row1.lc_name = row0.lc_name ∧ row1.deleted = row0.deleted ∧
          row1.modified = row0.modified := by
      intro g row0 h0
      by_cases hg : g = gT
      · subst hg
        have hrow0 : row0 = T := by
          have hft := findTopic_of_mem hTdb hgT hWFnd
          rw [h0] at hft
          exact Option.some_injective _ hft
        subst hrow0
        exact ⟨t', hfind1_self, by rw [ht'id, hf_id], by rw [ht'name, hf_name],
          by rw [ht'lc, hf_lc], by rw [ht'del, hf_del], by rw [ht'mod, hf_mod]⟩
      · exact ⟨row0, by rw [hfind1_other g hg]; exact h0, rfl, rfl, rfl, rfl, rfl⟩
    -- membership-level alignment for the reference conclusions
    have hmem_align : ∀ (i : Nat), ∀ x ∈ db.topics, x.deleted = false → x.id = some i →
        ∃ x1 ∈ db1.topics, x1.deleted = false ∧ x1.lc_name = x.lc_name ∧
          x1.id = some i := by
      intro i x hx hdel hxi
      obtain ⟨row1, hfind, hid, _, hlc2, hdel2, _⟩ :=
        halign1 i x (findTopic_of_mem hx hxi hWFnd)
      refine ⟨row1, ?_, ?_, hlc2, by rw [hid, hxi]⟩
      · exact List.mem_of_find?_eq_some hfind
      · rw [hdel2, hdel]
    have hnasc1 : db1.nascents = db2.nascents := rfl
    have hnext1 : db1.next_nascent_id = db2.next_nascent_id := rfl
    have hntid1 : db1.next_topic_id = db2.next_topic_id := rfl
    have hver1 : db1.versions = db.versions := by
      rw [hdb1, updateTopic_versions, hdb2ver]
    rw [hstep]
    refine ⟨c1, c2.trans hver1, c3.trans hids1, by rw [c4, hntid1, hdb2next],
      ?_, ?_, ?_, ?_, ?_, c10, c11, ?_⟩
    · -- rows outside the list are untouched
      intro g hgL
      have h5 := c5 g (fun T2 hT2 => hgL T2 (List.mem_cons_of_mem _ hT2))
      rw [h5]
      apply hfind1_other
      intro he
      exact hgL T (List.mem_cons_self _ _) (by rw [hgT, he])
    · -- row alignment composes
      intro g row0 h0
      obtain ⟨row1, h1, e1, e2, e3, e4, e5⟩ := halign1 g row0 h0
      obtain ⟨row2, h2, f1, f2, f3, f4, f5⟩ := c6 g row1 h1
      exact ⟨row2, h2, f1.trans e1, f2.trans e2, f3.trans e3, f4.trans e4,
        f5.trans e5⟩
    · -- every listed row was saved with its rewritten content
      intro T2 hT2 g hTg
      rcases List.mem_cons.mp hT2 with rfl | hT2'
      · have hgeq : g = gT := by
          rw [hgT] at hTg
          exact (Option.some_injective _ hTg.symm)
        subst hgeq
        have hfind : (saveEach now f db1 ts).1.findTopic g = some t' := by
          have h5 := c5 g (fun T3 hT3 => by
            rw [← hgT]
            exact fun he => hTnotts T3 hT3 (by rw [he]))
          rw [h5]
          exact hfind1_self
        refine ⟨t', hfind, by rw [ht'id, hf_id], by rw [ht'name, hf_name],
          by rw [ht'lc, hf_lc], by rw [ht'del, hf_del], by rw [ht'mod, hf_mod],
          ht'raw, ?_⟩
        intro i hi
        exact ht'refs i hi
      · obtain ⟨row, hfind, e1, e2, e3, e4, e5, e6, e7⟩ := c7 T2 hT2' g hTg
        refine ⟨row, hfind, e1, e2, e3, e4, e5, e6, ?_⟩
        intro i hi
        apply e7
        rcases hi with ⟨x, hx, hdel, hlcx, hxi⟩
        obtain ⟨x1, hx1, hdel1, hlc1, hxi1⟩ := hmem_align i x hx hdel hxi
        exact ⟨x1, hx1, hdel1, by rw [hlc1]; exact hlcx, hxi1⟩
    · -- old nascent rows survive
      intro m2 hm2
      apply c8
      rw [hnasc1]
      exact hn_keep m2 hm2
    · -- new nascent rows name no live topic
      intro m2 hm2
      rcases c9 m2 hm2 with h | ⟨hlcm, hnolive1⟩
      · rw [hnasc1] at h
        rcases hn_new m2 h with h2 | h2
        · exact Or.inl h2
        · exact Or.inr h2
      · right
        refine ⟨hlcm, ?_⟩
        rintro ⟨x, hx, hdel, hlcx⟩
        obtain ⟨x1, hx1, hdel1, hlc1, _⟩ :=
          hmem_align (x.id.getD 0) x hx hdel (by
            obtain ⟨g2, hg2⟩ := Option.isSome_iff_exists.mp (hWFid x hx)
            rw [hg2]
            rfl)
        exact hnolive1 ⟨x1, hx1, hdel1, by rw [hlc1, hlcx]⟩
    · -- nascent counter only advances
      have := c12
      rw [hnext1] at this
      omega

/-! ## Lemmas: the `topic_created` / `topic_renamed` handlers -/

/-- `deleteNascent` rewrites each topic row by stripping the deleted id
from its nascent links; lookups return the stripped row. -/
theorem findTopic_deleteNascent (db : DB) (nid : Nat) (g : Nat) :
    (db.deleteNascent nid).findTopic g =
      (db.findTopic g).map
        (fun t => { t with nascent_topics := t.nascent_topics.filter (· ≠ nid) }) := by
  show (db.topics.map _).find? _ = _
  rw [List.find?_map]
  rfl

/-- With no matching nascent topic, the `topic_created` handler does
nothing and raises nothing (the `DoesNotExist` branch is a pass). -/
theorem catch_topic_created_none (now : Int) (db : DB) (sender : Topic)
    (hfind : db.nascents.find?
      (fun n => lcString n.name == lcString sender.name) = none) :
    catch_topic_created now db sender = ⟨db, [], none⟩ := by
  unfold catch_topic_created
  rw [hfind]

/-- With a matching nascent topic, the handler re-saves every live topic
linked to it (re-rendering it without touching its raw content, so that
its references now resolve to the new topic) and then deletes the nascent
row.  No `TopicVersion` is created anywhere in this path. -/
theorem catch_topic_created_spec (now : Int) (db : DB) (sender : Topic)
    (n : NascentTopic) (g : Nat)
    (hfind : db.nascents.find?
      (fun n2 => lcString n2.name == lcString sender.name) = some n)
    (hsender : sender ∈ db.topics) (hlive : sender.deleted = false)
    (hgid : sender.id = some g)
    (hWFid : ∀ x ∈ db.topics, x.id.isSome)
    (hWFlc : ∀ x ∈ db.topics, x.lc_name = lcString x.name)
    (hWFval : ∀ x ∈ db.topics, Topic.valid_name x.name = true)
    (hWFmod : ∀ x ∈ db.topics, x.modified.isSome)
    (hWFnd : (db.topics.map (fun x => x.id)).Nodup)
    (hnlc : ∀ m ∈ db.nascents, m.lc_name = lcString m.name)
    (hnnd : (db.nascents.map (fun m => m.id)).Nodup)
    (hnb : ∀ m ∈ db.nascents, m.id < db.next_nascent_id)
    (hvalid : ∀ T ∈ db.topics, T.deleted = false → n.id ∈ T.nascent_topics →
      ∀ nm ∈ linkNames T.content_raw, Topic.valid_name nm = true) :
    let r := catch_topic_created now db sender
    r.err = none ∧ r.events = [] ∧
    r.db.versions = db.versions ∧
    (∀ m ∈ r.db.nascents, m.id ≠ n.id) ∧
    (∀ m ∈ db.nascents, m.id ≠ n.id → m ∈ r.db.nascents) ∧
    (∀ T ∈ db.topics, T.deleted = false → n.id ∈ T.nascent_topics →
      ∀ g2, T.id = some g2 →
        ∃ row, r.db.findTopic g2 = some row ∧
          row.content_raw = T.content_raw ∧
          (sender.lc_name ∈ linkNames T.content_raw → g ∈ row.references)) := by
  set ts : List Topic := db.topics.filter
    (fun x => !x.deleted && x.nascent_topics.contains n.id) with hts
  have hts_mem : ∀ T, T ∈ ts ↔
      (T ∈ db.topics ∧ T.deleted = false ∧ n.id ∈ T.nascent_topics) := by
    intro T
    rw [hts, List.mem_filter, Bool.and_eq_true]
    constructor
    · rintro ⟨h1, h2, h3⟩
      exact ⟨h1, by simpa using h2, contains_iff_mem.mp h3⟩
    · rintro ⟨h1, h2, h3⟩
      exact ⟨h1, by simpa using h2, contains_iff_mem.mpr h3⟩
  have hsub : ts.Sublist db.topics := List.filter_sublist _
  have hspec := saveEach_spec now (fun t => t) db ts
    (fun _ => rfl) (fun _ => rfl) (fun _ => rfl) (fun _ => rfl) (fun _ => rfl)
    (fun T hT => ((hts_mem T).mp hT).1)
    ((hsub.map (fun T => T.id)).nodup hWFnd)
    hWFid hWFlc hWFval hWFmod hWFnd hnlc hnnd hnb
    (fun T hT => hvalid T ((hts_mem T).mp hT).1 ((hts_mem T).mp hT).2.1
      ((hts_mem T).mp hT).2.2)
  obtain ⟨c1, c2, c3, c4, c5, c6, c7, c8, c9, c10, c11, c12⟩ := hspec
  rcases hse : saveEach now (fun t => t) db ts with ⟨db1, err1⟩
  have hfst : (saveEach now (fun t => t) db ts).1 = db1 := by rw [hse]
  have hsnd : (saveEach now (fun t => t) db ts).2 = err1 := by rw [hse]
  rw [hsnd] at c1
  subst c1
  rw [hfst] at c2 c3 c5 c6 c7 c8 c9
  have key : catch_topic_created now db sender =
      ⟨db1.deleteNascent n.id, [], none⟩ := by
    unfold catch_topic_created
    simp only [hfind, ← hts]
    rw [hse]
  simp only [key]
  refine ⟨trivial, trivial, ?_, ?_, ?_, ?_⟩
  · exact c2
  · intro m hm
    have hm2 : m ∈ db1.nascents.filter (fun x => x.id ≠ n.id) := hm
    have := (List.mem_filter.mp hm2).2
    intro he
    rw [he] at this
    simp at this
  · intro m hm hne
    show m ∈ db1.nascents.filter (fun x => x.id ≠ n.id)
    rw [List.mem_filter]
    exact ⟨c8 m hm, by simpa using hne⟩
  · intro T hT hdel hlink g2 hTg2
    obtain ⟨row, hfind2, e1, e2, e3, e4, e5, e6, e7⟩ :=
      c7 T ((hts_mem T).mpr ⟨hT, hdel, hlink⟩) g2 hTg2
    refine ⟨{ row with nascent_topics := row.nascent_topics.filter (· ≠ n.id) },
      ?_, e6, ?_⟩
    · show (db1.deleteNascent n.id).findTopic g2 = _
      rw [findTopic_deleteNascent, hfind2]
      rfl
    · intro hlk
      show g ∈ row.references
      exact e7 g ⟨sender, hsender, hlive, hlk, hgid⟩

/-- One unfolding step of the rename fan-out: the rewritten referencing
topics are saved, then the handler proceeds as for a created topic. -/
theorem catch_topic_renamed_spec (now : Int) (db : DB) (sender : Topic)
    (old_name : String) (g : Nat)
    (hsender : sender ∈ db.topics) (hlive : sender.deleted = false)
    (hgid : sender.id = some g)
    (hWFid : ∀ x ∈ db.topics, x.id.isSome)
    (hWFlc : ∀ x ∈ db.topics, x.lc_name = lcString x.name)
    (hWFval : ∀ x ∈ db.topics, Topic.valid_name x.name = true)
    (hWFmod : ∀ x ∈ db.topics, x.modified.isSome)
    (hWFnd : (db.topics.map (fun x => x.id)).Nodup)
    (hnlc : ∀ m ∈ db.nascents, m.lc_name = lcString m.name)
    (hnnd : (db.nascents.map (fun m => m.id)).Nodup)
    (hnb : ∀ m ∈ db.nascents, m.id < db.next_nascent_id)
    (hvalid : ∀ T ∈ db.topics, T.deleted = false →
      (∃ r0 ∈ T.references, some r0 = sender.id) →
      ∀ nm ∈ linkNames (rewriteLinks old_name sender.name T).content_raw,
        Topic.valid_name nm = true)
    (hnonasc : ∀ m ∈ db.nascents, lcString m.name ≠ lcString sender.name) :
    let r := catch_topic_renamed now db sender old_name
    r.err = none ∧ r.events = [] ∧
    r.db.versions = db.versions ∧
    (∀ T ∈ db.topics, T.deleted = false →
      (∃ r0 ∈ T.references, some r0 = sender.id) →
      ∀ g2, T.id = some g2 →
        ∃ row, r.db.findTopic g2 = some row ∧
          row.content_raw =
            String.mk (subLinks (lcString old_name) sender.name T.content_raw.data) ∧
          (sender.lc_name ∈
              linkNames (rewriteLinks old_name sender.name T).content_raw →
            g ∈ row.references)) := by
  set ts : List Topic := db.topics.filter
    (fun x => !x.deleted && x.references.any (fun r0 => some r0 == sender.id)) with hts
  have hts_mem : ∀ T, T ∈ ts ↔
      (T ∈ db.topics ∧ T.deleted = false ∧
       ∃ r0 ∈ T.references, some r0 = sender.id) := by
    intro T
    rw [hts, List.mem_filter, Bool.and_eq_true]
    constructor
    · rintro ⟨h1, h2, h3⟩
      rcases List.any_eq_true.mp h3 with ⟨r0, hr0, he⟩
      exact ⟨h1, by simpa using h2, r0, hr0, by simpa using he⟩
    · rintro ⟨h1, h2, r0, hr0, he⟩
      exact ⟨h1, by simpa using h2,
        List.any_eq_true.mpr ⟨r0, hr0, by simpa using he⟩⟩
  have hsub : ts.Sublist db.topics := List.filter_sublist _
  have hspec := saveEach_spec now (rewriteLinks old_name sender.name) db ts
    (fun _ => rfl) (fun _ => rfl) (fun _ => rfl) (fun _ => rfl) (fun _ => rfl)
    (fun T hT => ((hts_mem T).mp hT).1)
    ((hsub.map (fun T => T.id)).nodup hWFnd)
    hWFid hWFlc hWFval hWFmod hWFnd hnlc hnnd hnb
    (fun T hT => hvalid T ((hts_mem T).mp hT).1 ((hts_mem T).mp hT).2.1
      ((hts_mem T).mp hT).2.2)
  obtain ⟨c1, c2, c3, c4, c5, c6, c7, c8, c9, c10, c11, c12⟩ := hspec
  rcases hse : saveEach now (rewriteLinks old_name sender.name) db ts with ⟨db1, err1⟩
  have hfst : (saveEach now (rewriteLinks old_name sender.name) db ts).1 = db1 := by
    rw [hse]
  have hsnd : (saveEach now (rewriteLinks old_name sender.name) db ts).2 = err1 := by
    rw [hse]
  rw [hsnd] at c1
  subst c1
  rw [hfst] at c2 c3 c5 c6 c7 c8 c9
  have hnone : db1.nascents.find?
      (fun n2 => lcString n2.name == lcString sender.name) = none := by
    rw [List.find?_eq_none]
    intro m hm hp
    have hp2 : lcString m.name = lcString sender.name := by simpa using hp
    rcases c9 m hm with h | ⟨hmlc, hnolive⟩
    · exact hnonasc m h hp2
    · exact hnolive ⟨sender, hsender, hlive, by
        rw [hWFlc sender hsender, ← hp2, ← hmlc]⟩
  have key : catch_topic_renamed now db sender old_name =
      catch_topic_created now db1 sender := by
    unfold catch_topic_renamed
    simp only [← hts]
    rw [hse]
  simp only [key, catch_topic_created_none now db1 sender hnone]
  refine ⟨trivial, trivial, c2, ?_⟩
  intro T hT hdel href g2 hTg2
  obtain ⟨row, hfind2, e1, e2, e3, e4, e5, e6, e7⟩ :=
    c7 T ((hts_mem T).mpr ⟨hT, hdel, href⟩) g2 hTg2
  refine ⟨row, hfind2, e6, ?_⟩
  intro hlk
  exact e7 g ⟨sender, hsender, hlive, hlk, hgid⟩

/-! ## Concrete rows and stores used to exercise the operations -/

/-- A topic row with the optional fields defaulted, used by the concrete
runs below. -/
def mkTopic (i : Nat) (nm lc : String) (raw : String) (refs : List Nat)
    (nasc : List Nat) : Topic :=
  { id := some i, name := nm, lc_name := lc, created := 0, modified := some 0,
    author := 0, content_raw := raw, content_formatted := "", write_lock := none,
    locked := false, restricted := false, deleted := false, references := refs,
    nascent_topics := nasc, reason := "" }

def userA : User := { id := 3, is_staff := false }

def dbEmpty : DB :=
  { topics := [], nascents := [], versions := [], next_topic_id := 0,
    next_nascent_id := 0 }

def tFoo : Topic := mkTopic 0 "Foo" "foo" "" [] []

def tBar : Topic := mkTopic 1 "Bar" "bar" "" [] []

/-- Store with two live topics whose display names differ in case only
after the rename below. -/
def dbC3 : DB :=
  { topics := [tFoo, tBar], nascents := [], versions := [], next_topic_id := 2,
    next_nascent_id := 0 }

def tCur : Topic := mkTopic 0 "Page" "page" "cur text" [] []

def dbC7 : DB :=
  { topics := [tCur], nascents := [], versions := [], next_topic_id := 1,
    next_nascent_id := 0 }

/-- A version row belonging to a different topic than `tCur`. -/
def vForeign : TopicVersion :=
  { topic := some 1, name := "Other", author := 0, content_raw := "old",
    created := 0, reason := "", normalized_created := 0 }

/-- A version row belonging to `tCur`. -/
def vOwn : TopicVersion :=
  { topic := some 0, name := "Page", author := 0, content_raw := "old text",
    created := 0, reason := "", normalized_created := 0 }

def tDot : Topic := mkTopic 0 "2007.Agenda" "" "" [] []

def tSlash : Topic := mkTopic 0 "a/b" "a/b" "" [] []

def nSlash : NascentTopic :=
  { id := 0, name := "a/b", lc_name := "", created := 0, author := 0 }

def nGood : NascentTopic :=
  { id := 5, name := "NewPage", lc_name := "zz", created := 0, author := 4 }

/-- A topic holding a write lock owned by someone else than `userA`. -/
def tLockOther : Topic :=
  { mkTopic 0 "T" "t" "" [] [] with write_lock := some { owner := 1, expiry := 100 } }

def tC2 : Topic := mkTopic 0 "Page" "page" "old body" [] []

def dbC2 : DB :=
  { topics := [tC2], nascents := [], versions := [], next_topic_id := 1,
    next_nascent_id := 0 }

/-- A topic referencing the nascent topic `nB` through its link `[[B]]`. -/
def nB : NascentTopic :=
  { id := 0, name := "B", lc_name := "b", created := 0, author := 0 }

def tA5 : Topic := mkTopic 0 "A" "a" "x [[B]] y" [] [0]

def tB5 : Topic := mkTopic 1 "B" "b" "" [] []

def dbC5 : DB :=
  { topics := [tA5, tB5], nascents := [nB], versions := [], next_topic_id := 2,
    next_nascent_id := 1 }

def tEx : Topic := mkTopic 0 "Ex" "ex" "" [] []

def nOld : NascentTopic :=
  { id := 0, name := "Old", lc_name := "old", created := 0, author := 0 }

def dbC6 : DB :=
  { topics := [tEx], nascents := [nOld], versions := [], next_topic_id := 1,
    next_nascent_id := 1 }

/-- A document whose links resolve to one live topic, one existing nascent
topic and one unknown name. -/
def tRender : Topic := mkTopic 1 "Doc" "doc" "[[Ex]] [[Old]] [[New]]" [] []

def tA1 : Topic := mkTopic 0 "A" "a" "see [[B]] ok" [1] []

def tB1 : Topic := mkTopic 1 "B" "b" "hello" [] []

/-- Store where `tA1` references `tB1` via `[[B]]`, ready for a rename. -/
def dbC1 : DB :=
  { topics := [tA1, tB1], nascents := [], versions := [], next_topic_id := 2,
    next_nascent_id := 0 }

/-- The same store after `tB1` was renamed and saved as `C` (the state the
`topic_renamed` handler sees). -/
def tC1row : Topic := mkTopic 1 "C" "c" "hello" [] []

def dbC1h : DB :=
  { topics := [tA1, tC1row], nascents := [], versions := [], next_topic_id := 2,
    next_nascent_id := 0 }

/-! ## Lemmas: table preservation along a save -/

/-- Reconciliation leaves the topic and version tables alone. -/
theorem reconcile_db_tables (now : Int) (db : DB) (t : Topic)
    (topics : List String) (tc : List (String × String)) (extra : List Nat) :
    (reconcile now db t topics tc extra).2.topics = db.topics ∧
    (reconcile now db t topics tc extra).2.versions = db.versions := by
  set refsL : List Topic :=
    db.topics.filter (fun x => !x.deleted && topics.contains x.lc_name) with hrefsL
  set dne1 : List String :=
    topics.filter (fun nm => !(refsL.map (fun x : Topic => lcString x.name)).contains nm)
    with hdne1
  set nlist : List NascentTopic :=
    db.nascents.filter (fun x => dne1.contains x.lc_name) with hnlist
  set remaining : List String :=
    dne1.filter (fun nm => !(nlist.map (fun x => lcString x.name)).contains nm)
    with hremaining
  set t2 : Topic :=
    { t with references := refsL.filterMap (fun x : Topic => x.id) ++ extra,
             nascent_topics := nlist.map (fun x : NascentTopic => x.id) } with ht2
  have hunfold : reconcile now db t topics tc extra =
      create_nascents now tc (t2, db) remaining := rfl
  rw [hunfold]
  have hdb := create_nascents_db now tc t2 db remaining
  exact ⟨hdb.1, hdb.2.1⟩

/-- A rendering pass that returns `ok` leaves the topic and version tables
alone. -/
theorem prerender_preserves {now : Int} {db : DB} {t : Topic} {u : Bool}
    {t2 : Topic} {db2 : DB}
    (h : Topic.prerender_content now db t u = .ok (t2, db2)) :
    db2.topics = db.topics ∧ db2.versions = db.versions := by
  simp only [Topic.prerender_content] at h
  split at h
  · cases h
  · split at h
    · cases h
      exact ⟨rfl, rfl⟩
    · rcases hr : reconcile now db
          { t with content_formatted := String.mk (renderChars db t.content_raw.data) }
          (discoverList t.content_raw).topics (discoverList t.content_raw).topics_case
          (subtopicsExtra db t.content_raw) with ⟨tr, dbr⟩
      rw [hr] at h
      cases h
      have hp := reconcile_db_tables now db
        { t with content_formatted := String.mk (renderChars db t.content_raw.data) }
        (discoverList t.content_raw).topics (discoverList t.content_raw).topics_case
        (subtopicsExtra db t.content_raw)
      rw [hr] at hp
      exact hp

/-- Every outcome of a save of an existing row: an exception, or an
`UPDATE` against a store with the original topic and version tables. -/
theorem save_existing_cases (now : Int) (db : DB) (t : Topic) (r : Bool) :
    (∃ e, Topic.save_existing now db t r = .error e) ∨
    (∃ (t2 : Topic) (dbp : DB),
      Topic.save_existing now db t r = .ok (dbp.updateTopic t2) ∧
      dbp.versions = db.versions ∧ dbp.topics = db.topics) := by
  by_cases hv : (!Topic.valid_name (Topic.save_prologue now t).name) = true
  · left
    refine ⟨.badName, ?_⟩
    unfold Topic.save_existing
    simp only [hv, if_true]
    rfl
  · have hv2 : (!Topic.valid_name (Topic.save_prologue now t).name) = false := by
      simpa using hv
    cases r with
    | false =>
      right
      refine ⟨Topic.save_prologue now t, db, ?_, rfl, rfl⟩
      unfold Topic.save_existing
      simp only [hv2, Bool.false_eq_true, if_false, Bool.true_eq_false]
      rfl
    | true =>
      rcases hp : Topic.prerender_content now db (Topic.save_prologue now t) true
          with e | p
      · left
        refine ⟨e, ?_⟩
        unfold Topic.save_existing
        simp [hv2, hp]
      · rcases p with ⟨tp, dbp⟩
        right
        refine ⟨tp, dbp, ?_, (prerender_preserves hp).2, (prerender_preserves hp).1⟩
        unfold Topic.save_existing
        simp [hv2, hp]

/-- A successful save of an existing row never touches the version table. -/
theorem save_existing_versions {now : Int} {db : DB} {t : Topic} {r : Bool}
    {db2 : DB} (h : Topic.save_existing now db t r = .ok db2) :
    db2.versions = db.versions := by
  rcases save_existing_cases now db t r with ⟨e, he⟩ | ⟨t2, dbp, hok, hv, ht⟩
  · rw [he] at h
    cases h
  · rw [hok] at h
    cases h
    show (dbp.updateTopic t2).versions = db.versions
    rw [updateTopic_versions, hv]

/-- The version row `_new_version` appends for a topic in its pre-update
state. -/
def snapTV (t : Topic) : TopicVersion :=
  { topic := t.id, name := t.name, author := t.author,
    content_raw := t.content_raw, created := t.modified.getD 0,
    reason := t.reason, normalized_created := t.modified.getD 0 }

/-- The store after `_new_version` appended the snapshot of `t`. -/
def withSnap (db : DB) (t : Topic) : DB :=
  { db with versions := db.versions ++ [snapTV t] }

/-- Shape of `update_content` past the permission gate: one version row is
appended first (carrying the pre-update name, author, content, reason and
`modified` timestamp), then some topic row `t3` — the original with the new
content installed — is saved, and the raised/emitted results are read off
the outcome of that save. -/
theorem update_content_shape (now : Int) (db : DB) (t : Topic) (user : User)
    (new_content : String) (reason : Option String) (um trivial : Bool)
    (hlock : (t.locked && !user.is_staff) = false) :
    ∃ t3 : Topic,
      t3.id = t.id ∧ t3.name = t.name ∧ t3.content_raw = new_content ∧
      Topic.update_content now db t user new_content reason um trivial =
        (match Topic.save_existing now (withSnap db t) t3 true with
         | .error e => ⟨withSnap db t, [], some e⟩
         | .ok db2 =>
           ⟨db2, Event.modified (t3.id.getD 0) trivial ::
             (if !trivial then [Event.notify (t3.id.getD 0)] else []), none⟩) := by
  refine ⟨(if um then
      { t with
          reason := (match reason with
            | none => "Topic \u0022" ++ t.name ++ "\u0022 edited"
            | some r => if r.length = 0 then "Topic \u0022" ++ t.name ++ "\u0022 edited" else r),
          author := user.id, content_raw := new_content,
          modified := some (servertime now) }
    else
      { t with
          reason := (match reason with
            | none => "Topic \u0022" ++ t.name ++ "\u0022 edited"
            | some r => if r.length = 0 then "Topic \u0022" ++ t.name ++ "\u0022 edited" else r),
          author := user.id, content_raw := new_content }),
    by cases um <;> rfl, by cases um <;> rfl, by cases um <;> rfl, ?_⟩
  unfold Topic.update_content
  rw [if_neg (by simp [hlock])]
  cases um <;> rfl

/-! ## The claims -/

/-- C3: `Topic.rename` accepts a new name whose normalized (lowercased)
form collides with a live topic, because its existence check
`filter(name = new_name)` compares display names case-sensitively: renaming
`Bar` to `foo` next to the live topic `Foo` raises nothing and leaves two
live topics with `lc_name = "foo"`, breaking the one-live-topic-per-
normalized-name invariant the claim states. -/
theorem C3_rename_case_sensitivity_bug :
    (Topic.rename 5 dbC3 tBar userA "foo" none).err = none ∧
    ((Topic.rename 5 dbC3 tBar userA "foo" none).db.topics.filter
        (fun x => !x.deleted && x.lc_name == "foo")).length = 2 ∧
    lcString "foo" = lcString tFoo.name ∧ tFoo.deleted = false ∧
    tFoo ∈ dbC3.topics := by
  decide

/-- C4: `get_write_lock` follows the claimed state machine: no lock — a
fresh lock owned by the requester expiring in 20 minutes, success; own
lock — success, with the expiry extended to `now + 20min` exactly when
under a minute remains; foreign lock — takeover with a fresh expiry when
expired or forced, otherwise failure with the store untouched. -/
theorem C4_write_lock_state_machine (now : Int) (db : DB) (t : Topic)
    (user : User) (force : Bool)
    (hname : Topic.valid_name t.name = true)
    (hlc : t.lc_name = lcString t.name) {m : Int} (hm : t.modified = some m) :
    (t.write_lock = none →
      Topic.get_write_lock now db t user force =
        (⟨db.updateTopic
            { t with write_lock := some { owner := user.id, expiry := now + WRITE_LOCK_EXPIRY } },
          [], none⟩, true)) ∧
    (∀ wl, t.write_lock = some wl → wl.owner = user.id →
      ((wl.expiry - now < 60 →
          Topic.get_write_lock now db t user force =
            (⟨db.updateTopic
                { t with write_lock := some { wl with expiry := now + WRITE_LOCK_EXPIRY } },
              [], none⟩, true)) ∧
       (¬wl.expiry - now < 60 →
          Topic.get_write_lock now db t user force = (⟨db, [], none⟩, true)))) ∧
    (∀ wl, t.write_lock = some wl → wl.owner ≠ user.id →
      (((wl.expiry < now ∨ force = true) →
          Topic.get_write_lock now db t user force =
            (⟨db.updateTopic
                { t with write_lock := some { owner := user.id, expiry := now + WRITE_LOCK_EXPIRY } },
              [], none⟩, true)) ∧
       (¬wl.expiry < now → force = false →
          Topic.get_write_lock now db t user force = (⟨db, [], none⟩, false)))) := by
  refine ⟨?_, ?_, ?_⟩
  · intro hnone
    have hpe : Topic.save_prologue now
        { t with write_lock := some { owner := user.id, expiry := now + WRITE_LOCK_EXPIRY } } =
        { t with write_lock := some { owner := user.id, expiry := now + WRITE_LOCK_EXPIRY } } :=
      save_prologue_eq now hlc hm
    have hsave : Topic.save_existing now db
        { t with write_lock := some { owner := user.id, expiry := now + WRITE_LOCK_EXPIRY } }
        false =
        .ok (db.updateTopic
          { t with write_lock := some { owner := user.id, expiry := now + WRITE_LOCK_EXPIRY } }) := by
      unfold Topic.save_existing
      rw [hpe]
      simp only [hname, Bool.not_true, Bool.false_eq_true, if_false]
      rfl
    unfold Topic.get_write_lock
    rw [hnone]
    simp only [hsave]
  · intro wl hwl howner
    unfold Topic.get_write_lock
    rw [hwl]
    constructor
    · intro hexp
      simp [howner, hexp]
    · intro hexp
      simp [howner, hexp]
  · intro wl hwl howner
    unfold Topic.get_write_lock
    rw [hwl]
    constructor
    · rintro (hexp | hforce)
      · simp [howner, hexp]
      · simp [howner, hforce]
    · intro hexp hforce
      subst hforce
      simp [howner, hexp]

/-- Witness for C4: a foreign unexpired lock without `force` makes the
acquisition fail and leaves the store untouched. -/
theorem C4_write_lock_state_machine_witness :
    Topic.get_write_lock 50 dbEmpty tLockOther userA false =
      (⟨dbEmpty, [], none⟩, false) :=
  ((C4_write_lock_state_machine 50 dbEmpty tLockOther userA false (by decide)
      (by decide) rfl).2.2 { owner := 1, expiry := 100 } rfl
      (by decide)).2 (by decide) rfl

/-- C7: reverting to a version row of a *different* topic takes the guard
branch, but the source raises `TypeError` there (its format string has two
placeholders for one argument and `TopicException` gets two constructor
arguments), not `TopicException`; reverting to an own version delegates to
`update_content`, so the content becomes the raw content stored in the version
and one new version first snapshots the pre-revert content. -/
theorem C7_revert_guard_and_delegation :
    (Topic.revert 9 dbC7 tCur userA vForeign none = ⟨dbC7, [], some Err.typeError⟩ ∧
     vForeign.topic ≠ tCur.id ∧ Err.typeError ≠ Err.topicException) ∧
    ((Topic.revert 9 dbC7 tCur userA vOwn none).err = none ∧
     ((Topic.revert 9 dbC7 tCur userA vOwn none).db.findTopic 0).map
        (fun x => x.content_raw) = some vOwn.content_raw ∧
     (Topic.revert 9 dbC7 tCur userA vOwn none).db.versions.map
        (fun v => v.content_raw) = [tCur.content_raw]) := by
  decide

/-- C8: `valid_name` is `false` exactly for names containing `/` or `:`;
creating a topic with such a name raises `BadName` with the store returned
unchanged; a name containing `.` passes validation and its creation
persists the row. -/
theorem C8_name_validity (s : String) (now : Int) (db : DB) (t : Topic) :
    (Topic.valid_name s = false ↔ '/' ∈ s.data ∨ ':' ∈ s.data) ∧
    ('/' ∈ t.name.data ∨ ':' ∈ t.name.data →
      Topic.save_new now db t true = ⟨db, [], some Err.badName⟩) ∧
    Topic.valid_name "2007.Agenda" = true ∧
    (Topic.save_new 0 dbEmpty tDot true).err = none ∧
    (Topic.save_new 0 dbEmpty tDot true).db.topics.map (fun x => x.name) =
      [tDot.name] := by
  refine ⟨valid_name_eq_false_iff s, ?_, by decide, by decide, by decide⟩
  intro hbad
  have hv : Topic.valid_name t.name = false :=
    (valid_name_eq_false_iff t.name).mpr hbad
  simp [Topic.save_new, Topic.save_prologue, hv]

/-- Witness for C8: the name `a/b` is rejected by `create` with `BadName`
and nothing is persisted. -/
theorem C8_name_validity_witness :
    Topic.save_new 0 dbEmpty tSlash true = ⟨dbEmpty, [], some Err.badName⟩ ∧
    Topic.valid_name "a/b" = false :=
  ⟨(C8_name_validity "a/b" 0 dbEmpty tSlash).2.1 (by decide),
   (C8_name_validity "a/b" 0 dbEmpty tSlash).1.mpr (by decide)⟩

/-- C10: `NascentTopic.save` on a name containing `/` or `:` silently
returns without persisting anything — unlike `Topic.save`, which raises
`BadName` — and every row it does persist stores the lowercased name in
`lc_name`. -/
theorem C10_nascent_silent_noop (db : DB) (n : NascentTopic) (now : Int)
    (t : Topic) :
    ('/' ∈ n.name.data ∨ ':' ∈ n.name.data → NascentTopic.save db n = db) ∧
    ('/' ∈ t.name.data ∨ ':' ∈ t.name.data →
      (Topic.save_new now db t true).err = some Err.badName) ∧
    (Topic.valid_name n.name = true →
      (NascentTopic.save db n).nascents =
        db.nascents ++
          [{ n with id := db.next_nascent_id, lc_name := lcString n.name }]) := by
  refine ⟨?_, ?_, ?_⟩
  · intro hbad
    have hv : Topic.valid_name n.name = false :=
      (valid_name_eq_false_iff n.name).mpr hbad
    simp [NascentTopic.save, hv]
  · intro hbad
    have hv : Topic.valid_name t.name = false :=
      (valid_name_eq_false_iff t.name).mpr hbad
    simp [Topic.save_new, Topic.save_prologue, hv]
  · intro hval
    simp [NascentTopic.save, hval]

/-- Witness for C10: the nascent name `a/b` is dropped without an error
while the same topic name raises, and a valid nascent row is stored with
its lowercased name. -/
theorem C10_nascent_silent_noop_witness :
    NascentTopic.save dbEmpty nSlash = dbEmpty ∧
    (Topic.save_new 0 dbEmpty tSlash true).err = some Err.badName ∧
    (NascentTopic.save dbEmpty nGood).nascents =
      [{ nGood with id := 0, lc_name := lcString nGood.name }] :=
  ⟨(C10_nascent_silent_noop dbEmpty nSlash 0 tSlash).1 (by decide),
   (C10_nascent_silent_noop dbEmpty nSlash 0 tSlash).2.1 (by decide),
   (C10_nascent_silent_noop dbEmpty nGood 0 tSlash).2.2 (by decide)⟩

/-- C2: past the lock gate, `update_content` appends exactly one version
row — carrying the pre-update content, name, author, reason and the
pre-update `modified` timestamp as `created` — before the topic row is
overwritten, whatever the outcome of the save; when the call completes, a
`topic_modified` event is always emitted and a `topic_notify` event is
emitted exactly for non-trivial edits. -/
theorem C2_update_content_versioning (now : Int) (db : DB) (t : Topic)
    (user : User) (new_content : String) (reason : Option String)
    (um trivial : Bool)
    (hlock : (t.locked && !user.is_staff) = false) :
    let r := Topic.update_content now db t user new_content reason um trivial
    r.db.versions = db.versions ++
      [{ topic := t.id, name := t.name, author := t.author,
           content_raw := t.content_raw, created := t.modified.getD 0,
           reason := t.reason, normalized_created := t.modified.getD 0 }] ∧
    (r.err = none →
      r.events = Event.modified (t.id.getD 0) trivial ::
        (if !trivial then [Event.notify (t.id.getD 0)] else [])) ∧
    (r.err = none → (Event.notify (t.id.getD 0) ∈ r.events ↔ trivial = false)) ∧
    (Event.modified (t.id.getD 0) trivial ∈ r.events ↔ r.err = none) := by
  obtain ⟨t3, ht3id, ht3name, ht3raw, hkey⟩ :=
    update_content_shape now db t user new_content reason um trivial hlock
  rcases hse : Topic.save_existing now (withSnap db t) t3 true with e | db2
  · have hkey2 : Topic.update_content now db t user new_content reason um trivial =
        ⟨withSnap db t, [], some e⟩ := by
      rw [hkey, hse]
    simp only [hkey2]
    refine ⟨rfl, ?_, ?_, ?_⟩
    · intro h
      cases h
    · intro h
      cases h
    · constructor
      · intro h
        simp at h
      · intro h
        cases h
  · have hkey2 : Topic.update_content now db t user new_content reason um trivial =
        ⟨db2, Event.modified (t3.id.getD 0) trivial ::
          (if !trivial then [Event.notify (t3.id.getD 0)] else []), none⟩ := by
      rw [hkey, hse]
    have hver := save_existing_versions hse
    simp only [hkey2, ht3id]
    refine ⟨hver, ?_, ?_, ?_⟩
    · intro _
      exact True.intro
    · intro _
      cases trivial
      · simp
      · simp
    · simp

/-- Witness for C2: a plain edit of an unlocked topic stores one snapshot
of the old body and notifies. -/
theorem C2_update_content_versioning_witness :
    (tC2.locked && !userA.is_staff) = false ∧
    (Topic.update_content 3 dbC2 tC2 userA "new body" none true false).db.versions =
      dbC2.versions ++
        [{ topic := tC2.id, name := tC2.name, author := tC2.author,
           content_raw := tC2.content_raw, created := tC2.modified.getD 0,
           reason := tC2.reason, normalized_created := tC2.modified.getD 0 }] ∧
    (Event.notify (tC2.id.getD 0) ∈
        (Topic.update_content 3 dbC2 tC2 userA "new body" none true false).events ↔
      (false : Bool) = false) := by
  have h := C2_update_content_versioning 3 dbC2 tC2 userA "new body" none true false
    (by decide)
  exact ⟨by decide, h.1, h.2.2.1 (by decide)⟩

/-- C9: an invalid discovered name fails the rendering pass with `BadName`
whatever the relationship flag, and an `update_content` whose new body
contains such a link raises `BadName`, leaves every topic row untouched and
emits no event. -/
theorem C9_badname_aborts (now : Int) (db : DB) (t : Topic) (user : User)
    (new_content : String) (reason : Option String) (um trivial : Bool)
    (u : Bool)
    (hbad : ∃ nm ∈ linkNames new_content, Topic.valid_name nm = false)
    (hlock : (t.locked && !user.is_staff) = false)
    (hname : Topic.valid_name t.name = true) :
    Topic.prerender_content now db { t with content_raw := new_content } u =
      .error Err.badName ∧
    (let r := Topic.update_content now db t user new_content reason um trivial
     r.err = some Err.badName ∧ r.db.topics = db.topics ∧ r.events = []) := by
  constructor
  · exact prerender_badname now db _ u hbad
  · obtain ⟨t3, ht3id, ht3name, ht3raw, hkey⟩ :=
      update_content_shape now db t user new_content reason um trivial hlock
    have hsv : Topic.save_existing now (withSnap db t) t3 true =
        .error Err.badName := by
      apply save_existing_badname
      · rw [ht3name]
        exact hname
      · rw [ht3raw]
        exact hbad
    have hkey2 : Topic.update_content now db t user new_content reason um trivial =
        ⟨withSnap db t, [], some Err.badName⟩ := by
      rw [hkey, hsv]
    simp only [hkey2]
    exact ⟨True.intro, rfl, True.intro⟩

/-- Witness for C9: a body linking `[[a/b]]` aborts the render and the
content change without touching any topic row. -/
theorem C9_badname_aborts_witness :
    (∃ nm ∈ linkNames "see [[a/b]]", Topic.valid_name nm = false) ∧
    Topic.prerender_content 3 dbC2 { tC2 with content_raw := "see [[a/b]]" } true =
      .error Err.badName ∧
    ((Topic.update_content 3 dbC2 tC2 userA "see [[a/b]]" none true false).err =
      some Err.badName ∧
     (Topic.update_content 3 dbC2 tC2 userA "see [[a/b]]" none true false).db.topics =
      dbC2.topics ∧
     (Topic.update_content 3 dbC2 tC2 userA "see [[a/b]]" none true false).events =
      []) := by
  have h := C9_badname_aborts 3 dbC2 tC2 userA "see [[a/b]]" none true false true
    (by decide) (by decide) (by decide)
  exact ⟨by decide, h.1, h.2⟩

/-- C6: a successful render reconciles the reference graph exactly as
claimed — references are the live topics among the discovered names plus
the extra macro references, the existing nascent rows among the unresolved
names stay linked, and every unresolved name without a nascent row gets one
created with the recorded casing and the author of the rendered topic. -/
theorem C6_reconciliation (now : Int) (db : DB) (t : Topic)
    (hvalid : ∀ nm ∈ linkNames t.content_raw, Topic.valid_name nm = true)
    (hWFlc : ∀ x ∈ db.topics, x.lc_name = lcString x.name)
    (hnlc : ∀ m ∈ db.nascents, m.lc_name = lcString m.name)
    (hnnd : (db.nascents.map (fun m => m.id)).Nodup)
    (hnb : ∀ m ∈ db.nascents, m.id < db.next_nascent_id) :
    ∃ (t2 : Topic) (db2 : DB),
      Topic.prerender_content now db t true = .ok (t2, db2) ∧
      (∀ i, i ∈ t2.references ↔
        ((∃ x ∈ db.topics, x.deleted = false ∧
            x.lc_name ∈ linkNames t.content_raw ∧ x.id = some i) ∨
         i ∈ subtopicsExtra db t.content_raw)) ∧
      (∀ m ∈ db.nascents,
        (m.id ∈ t2.nascent_topics ↔
          m.lc_name ∈ unresolvedIn db (linkNames t.content_raw))) ∧
      (∀ nm ∈ unresolvedIn db (linkNames t.content_raw),
        (∀ m ∈ db.nascents, m.lc_name ≠ nm) →
        ∃ mrow ∈ db2.nascents, mrow.lc_name = nm ∧
          mrow.name = (caseOf (discoverList t.content_raw).topics_case nm).getD nm ∧
          mrow.author = t.author ∧ mrow.id ∈ t2.nascent_topics) := by
  set tf : Topic :=
    { t with content_formatted := String.mk (renderChars db t.content_raw.data) }
    with htf
  have hcase : ∀ nm ∈ (discoverList t.content_raw).topics,
      lcString ((caseOf (discoverList t.content_raw).topics_case nm).getD nm) = nm :=
    fun nm hnm => discoverList_caseD t.content_raw hnm
  have hspec := reconcile_spec now db tf (discoverList t.content_raw).topics
    (discoverList t.content_raw).topics_case (subtopicsExtra db t.content_raw)
    hWFlc hnlc hnnd hnb hvalid hcase
  set rr := reconcile now db tf (discoverList t.content_raw).topics
    (discoverList t.content_raw).topics_case (subtopicsExtra db t.content_raw)
    with hrr
  obtain ⟨hfields, hdbs, hrefs, hnasc, hcreate, hkeep, hnew⟩ := hspec
  refine ⟨rr.1, rr.2, ?_, hrefs, hnasc, ?_⟩
  · have hpre := prerender_ok now db t hvalid
    rw [← htf, ← hrr] at hpre
    exact hpre
  · intro nm hnm hno
    obtain ⟨mrow, hm, ha, hb, hc, hd⟩ := hcreate nm hnm hno
    exact ⟨mrow, hm, ha, hb, hc, hd⟩

/-- Witness for C6: rendering `[[Ex]] [[Old]] [[New]]` references the live
`Ex`, keeps the nascent link to `Old` and creates a nascent `New`. -/
theorem C6_reconciliation_witness :
    ∃ (t2 : Topic) (db2 : DB),
      Topic.prerender_content 4 dbC6 tRender true = .ok (t2, db2) ∧
      0 ∈ t2.references ∧
      nOld.id ∈ t2.nascent_topics ∧
      (∃ mrow ∈ db2.nascents, mrow.lc_name = "new" ∧ mrow.name = "New" ∧
        mrow.author = tRender.author ∧ mrow.id ∈ t2.nascent_topics) := by
  obtain ⟨t2, db2, hok, hrefs, hnasc, hcreate⟩ :=
    C6_reconciliation 4 dbC6 tRender (by decide) (by decide) (by decide)
      (by decide) (by decide)
  refine ⟨t2, db2, hok, ?_, ?_, ?_⟩
  · exact (hrefs 0).mpr (Or.inl ⟨tEx, by decide, by decide, by decide, by decide⟩)
  · exact (hnasc nOld (by decide)).mpr (by decide)
  · obtain ⟨mrow, hm, ha, hb, hc, hd⟩ := hcreate "new" (by decide) (by decide)
    refine ⟨mrow, hm, ha, ?_, hc, hd⟩
    rw [hb]
    decide

/-- C5: on `topic_created`, a matching nascent topic (by normalized name)
makes every topic linked to it get re-saved — raw content unchanged, its
references now holding the new topic — and the nascent row disappears; with
no matching nascent topic the handler is a silent no-op. -/
theorem C5_nascent_resolution (now : Int) (db : DB) (sender : Topic) (g : Nat)
    (hsender : sender ∈ db.topics) (hlive : sender.deleted = false)
    (hgid : sender.id = some g)
    (hWFid : ∀ x ∈ db.topics, x.id.isSome)
    (hWFlc : ∀ x ∈ db.topics, x.lc_name = lcString x.name)
    (hWFval : ∀ x ∈ db.topics, Topic.valid_name x.name = true)
    (hWFmod : ∀ x ∈ db.topics, x.modified.isSome)
    (hWFnd : (db.topics.map (fun x => x.id)).Nodup)
    (hnlc : ∀ m ∈ db.nascents, m.lc_name = lcString m.name)
    (hnnd : (db.nascents.map (fun m => m.id)).Nodup)
    (hnb : ∀ m ∈ db.nascents, m.id < db.next_nascent_id)
    (hvalid : ∀ T ∈ db.topics, T.deleted = false →
      ∀ nm ∈ linkNames T.content_raw, Topic.valid_name nm = true) :
    (db.nascents.find? (fun n => lcString n.name == lcString sender.name) = none →
      catch_topic_created now db sender = ⟨db, [], none⟩) ∧
    (∀ n, db.nascents.find?
        (fun n2 => lcString n2.name == lcString sender.name) = some n →
      (catch_topic_created now db sender).err = none ∧
      (catch_topic_created now db sender).db.versions = db.versions ∧
      (∀ m ∈ (catch_topic_created now db sender).db.nascents, m.id ≠ n.id) ∧
      (∀ m ∈ db.nascents, m.id ≠ n.id →
        m ∈ (catch_topic_created now db sender).db.nascents) ∧
      (∀ T ∈ db.topics, T.deleted = false → n.id ∈ T.nascent_topics →
        ∀ g2, T.id = some g2 →
          ∃ row, (catch_topic_created now db sender).db.findTopic g2 = some row ∧
            row.content_raw = T.content_raw ∧
            (sender.lc_name ∈ linkNames T.content_raw → g ∈ row.references))) := by
  constructor
  · intro hfind
    exact catch_topic_created_none now db sender hfind
  · intro n hfind
    have h := catch_topic_created_spec now db sender n g hfind hsender hlive hgid
      hWFid hWFlc hWFval hWFmod hWFnd hnlc hnnd hnb
      (fun T hT hdel _ => hvalid T hT hdel)
    exact ⟨h.1, h.2.2.1, h.2.2.2.1, h.2.2.2.2.1, h.2.2.2.2.2⟩

/-- Witness for C5: creating `B` resolves the nascent `B`: the nascent row
is deleted and the topic that linked to it keeps its raw content while its
references pick up the new topic. -/
theorem C5_nascent_resolution_witness :
    (catch_topic_created 4 dbC5 tB5).err = none ∧
    (∀ m ∈ (catch_topic_created 4 dbC5 tB5).db.nascents, m.id ≠ nB.id) ∧
    (∃ row, (catch_topic_created 4 dbC5 tB5).db.findTopic 0 = some row ∧
      row.content_raw = tA5.content_raw ∧ 1 ∈ row.references) := by
  have h := (C5_nascent_resolution 4 dbC5 tB5 1 (by decide) (by decide)
    (by decide) (by decide) (by decide) (by decide) (by decide) (by decide)
    (by decide) (by decide) (by decide) (by decide)).2 nB (by decide)
  refine ⟨h.1, h.2.2.1, ?_⟩
  obtain ⟨row, hfind, hraw, hmem⟩ :=
    h.2.2.2.2 tA5 (by decide) (by decide) (by decide) 0 (by decide)
  exact ⟨row, hfind, hraw, hmem (by decide)⟩

/-- Counterexample to C1 as stated: renaming `B` to `C` while `A`
references `[[B]]` does rewrite the raw content of `A` to `[[C]]` and keeps
its reference to the renamed topic, but the only version row recorded
belongs to `B` itself — no snapshot of the old content of `A` exists
anywhere in the store. -/
theorem C1_no_referencing_version_counterexample :
    (Topic.rename 5 dbC1 tB1 userA "C" none).err = none ∧
    ((Topic.rename 5 dbC1 tB1 userA "C" none).db.findTopic 0).map
        (fun x => x.content_raw) = some "see [[C]] ok" ∧
    ((Topic.rename 5 dbC1 tB1 userA "C" none).db.findTopic 0).map
        (fun x => x.references) = some [1] ∧
    (Topic.rename 5 dbC1 tB1 userA "C" none).db.versions.map
        (fun v => (v.topic, v.content_raw)) = [(some 1, "hello")] ∧
    tA1.content_raw = "see [[B]] ok" ∧ tA1 ∈ dbC1.topics := by
  decide

/-- C1 (amended): the rename handler rewrites every wiki-link occurrence of
the old name in each referencing topic and re-renders it — the rewritten
row keeps a reference to the renamed topic — but it records **no**
`TopicVersion` for any of them: the version table is exactly as before the
handler ran. -/
theorem C1_rename_rewrites_without_version (now : Int) (db : DB)
    (sender : Topic) (old_name : String) (g : Nat)
    (hsender : sender ∈ db.topics) (hlive : sender.deleted = false)
    (hgid : sender.id = some g)
    (hWFid : ∀ x ∈ db.topics, x.id.isSome)
    (hWFlc : ∀ x ∈ db.topics, x.lc_name = lcString x.name)
    (hWFval : ∀ x ∈ db.topics, Topic.valid_name x.name = true)
    (hWFmod : ∀ x ∈ db.topics, x.modified.isSome)
    (hWFnd : (db.topics.map (fun x => x.id)).Nodup)
    (hnlc : ∀ m ∈ db.nascents, m.lc_name = lcString m.name)
    (hnnd : (db.nascents.map (fun m => m.id)).Nodup)
    (hnb : ∀ m ∈ db.nascents, m.id < db.next_nascent_id)
    (hvalid : ∀ T ∈ db.topics, T.deleted = false →
      ∀ nm ∈ linkNames (rewriteLinks old_name sender.name T).content_raw,
        Topic.valid_name nm = true)
    (hnonasc : ∀ m ∈ db.nascents, lcString m.name ≠ lcString sender.name) :
    let r := catch_topic_renamed now db sender old_name
    r.err = none ∧
    r.db.versions = db.versions ∧
    (∀ T ∈ db.topics, T.deleted = false →
      (∃ r0 ∈ T.references, some r0 = sender.id) →
      ∀ g2, T.id = some g2 →
        ∃ row, r.db.findTopic g2 = some row ∧
          row.content_raw =
            String.mk (subLinks (lcString old_name) sender.name
              T.content_raw.data) ∧
          (sender.lc_name ∈
              linkNames (rewriteLinks old_name sender.name T).content_raw →
            g ∈ row.references)) := by
  have h := catch_topic_renamed_spec now db sender old_name g hsender hlive hgid
    hWFid hWFlc hWFval hWFmod hWFnd hnlc hnnd hnb
    (fun T hT hdel _ => hvalid T hT hdel) hnonasc
  exact ⟨h.1, h.2.2.1, h.2.2.2⟩

/-- Witness for C1: after `B` became `C`, the handler leaves the version
table empty while the referencing topic is rewritten to `[[C]]`. -/
theorem C1_rename_rewrites_without_version_witness :
    (catch_topic_renamed 5 dbC1h tC1row "B").err = none ∧
    (catch_topic_renamed 5 dbC1h tC1row "B").db.versions = dbC1h.versions ∧
    ((catch_topic_renamed 5 dbC1h tC1row "B").db.findTopic 0).map
        (fun x => x.content_raw) = some "see [[C]] ok" := by
  have h := C1_rename_rewrites_without_version 5 dbC1h tC1row "B" 1
    (by decide) (by decide) (by decide) (by decide) (by decide) (by decide)
    (by decide) (by decide) (by decide) (by decide) (by decide) (by decide)
    (by decide)
  refine ⟨h.1, h.2.1, ?_⟩
  obtain ⟨row, hfind, hraw, hmem⟩ :=
    h.2.2 tA1 (by decide) (by decide) (by decide) 0 (by decide)
  rw [hfind]
  show some row.content_raw = some "see [[C]] ok"
  rw [hraw]
  decide

end Aswiki
